import Mathlib

/-! currensies: 90-day exchange-rate aggregation (`main.go`)

A shallow embedding of `main.go` and the properties of its aggregation
pipeline.

Modelling conventions.

* A `Float` (Go `float32`) is NaN or a number; a number is one of the two
  infinities or a finite value, carried as the rational it denotes.
  Comparisons follow IEEE 754 (every comparison with NaN is false), sums and
  quotients are rounded to the nearest float32, ties to even, and overflow
  gives an infinity.  The two zeros are one value: they compare equal, and the
  program never divides by a parsed value.  The finite values the program
  produces are float32 values; the theorems hold for every rational payload.
* `int` is embedded as `Int` (no wrap-around: reaching `2^63` records is not
  possible in memory).
* `map[string]CurrencyInfo` is an association list with unique keys; `get` and
  `set` are the map read `m[k]` and the map write `m[k] = v`.
* The standard library and the network are not part of the repository.
  `strings.Replace` is modelled directly; `time.Now`, `Time.Format`,
  `strconv.ParseFloat`, the HTTP client and the XML tokenizer are fields of a
  `World` value that every theorem about `fetchCurrencyData` quantifies over.
* `time.Time` is a calendar day number with a time of day, and
  `t.AddDate(0, 0, d)` moves the day number by `d`.
-/

namespace Currensies

/-! ## Floating point -/

/-- A float32 value that is a number: finite, or one of the two infinities. -/
inductive ExtRat where
  | negInf
  | fin (q : ℚ)
  | posInf
  deriving DecidableEq

/-- The order of the numbers: `negInf` below and `posInf` above every finite
value. -/
def ExtRat.le : ExtRat → ExtRat → Prop
  | .negInf, _ => True
  | .fin _, .negInf => False
  | .fin a, .fin b => a ≤ b
  | .fin _, .posInf => True
  | .posInf, .posInf => True
  | .posInf, _ => False

instance ExtRat.decidableLe : DecidableRel ExtRat.le
  | .negInf, _ => isTrue trivial
  | .fin _, .negInf => isFalse not_false
  | .fin a, .fin b => inferInstanceAs (Decidable (a ≤ b))
  | .fin _, .posInf => isTrue trivial
  | .posInf, .posInf => isTrue trivial
  | .posInf, .negInf => isFalse not_false
  | .posInf, .fin _ => isFalse not_false

instance : LinearOrder ExtRat where
  le := ExtRat.le
  le_refl a := by cases a <;> simp [ExtRat.le]
  le_trans a b c := by
    cases a <;> cases b <;> cases c <;> simp [ExtRat.le]
    exact le_trans
  le_antisymm a b := by
    cases a <;> cases b <;> simp [ExtRat.le]
    exact le_antisymm
  le_total a b := by
    cases a <;> cases b <;> simp [ExtRat.le]
    exact le_total _ _
  decidableLE := ExtRat.decidableLe

instance : Zero ExtRat := ⟨.fin 0⟩

/-- Go `type Float float32`: NaN or a number. -/
inductive Float where
  | nan
  | num (x : ExtRat)
  deriving DecidableEq

/-- The value `0.0`. -/
def Float.zero : Float := .num 0

/-- The finite value denoted by a rational. -/
def Float.ofRat (q : ℚ) : Float := .num (.fin q)

/-- IEEE `<=`: false as soon as one side is NaN. -/
def Float.le : Float → Float → Prop
  | .num a, .num b => a ≤ b
  | _, _ => False

/-- IEEE `<`: false as soon as one side is NaN. -/
def Float.lt : Float → Float → Prop
  | .num a, .num b => a < b
  | _, _ => False

/-- IEEE `==`: false as soon as one side is NaN. -/
def Float.eq : Float → Float → Prop
  | .num a, .num b => a = b
  | _, _ => False

instance : LE Float := ⟨Float.le⟩

instance : LT Float := ⟨Float.lt⟩

instance Float.decidableLe : (a b : Float) → Decidable (a ≤ b)
  | .num a, .num b => inferInstanceAs (Decidable (a ≤ b))
  | .nan, _ => isFalse not_false
  | .num _, .nan => isFalse not_false

instance Float.decidableLt : (a b : Float) → Decidable (a < b)
  | .num a, .num b => inferInstanceAs (Decidable (a < b))
  | .nan, _ => isFalse not_false
  | .num _, .nan => isFalse not_false

instance Float.decidableIeeeEq : (a b : Float) → Decidable (Float.eq a b)
  | .num a, .num b => inferInstanceAs (Decidable (a = b))
  | .nan, _ => isFalse not_false
  | .num _, .nan => isFalse not_false

/-- Round to the nearest integer, ties to the even one. -/
def roundHalfEven (r : ℚ) : ℤ :=
  if r - ⌊r⌋ < 1 / 2 then ⌊r⌋
  else if 1 / 2 < r - ⌊r⌋ then ⌊r⌋ + 1
  else if ⌊r⌋ % 2 = 0 then ⌊r⌋ else ⌊r⌋ + 1

/-- The exponent of the unit in the last place of float32 at the magnitude
`a > 0`: 24 significant bits, and no finer than `2^-149`. -/
def ulpExp (a : ℚ) : ℤ := max (Int.log 2 a - 23) (-149)

/-- The float32 nearest to the rational `q` (IEEE 754 round to nearest, ties to
even); magnitudes from `(2^25 - 1) · 2^103` on round to an infinity. -/
def round32 (q : ℚ) : ExtRat :=
  let r : ℚ := (roundHalfEven (|q| / (2 : ℚ) ^ ulpExp |q|) : ℚ) * (2 : ℚ) ^ ulpExp |q|
  if (2 : ℚ) ^ (128 : ℕ) ≤ r then (if q < 0 then .negInf else .posInf)
  else .fin (if q < 0 then -r else r)

/-- Go `Float(fv)` for a `float64` `fv`: the conversion to float32 rounds a
finite value and keeps NaN and the infinities. -/
def Float.ofFloat64 : Float → Float
  | .nan => .nan
  | .num .negInf => .num .negInf
  | .num .posInf => .num .posInf
  | .num (.fin q) => .num (round32 q)

/-- Go `float32(n)` for an `int` `n`. -/
def Float.ofInt (n : Int) : Float := .num (round32 (n : ℚ))

/-- Go `a + b` on float32. -/
def Float.add : Float → Float → Float
  | .num (.fin a), .num (.fin b) => .num (round32 (a + b))
  | .num .posInf, .num .negInf => .nan
  | .num .negInf, .num .posInf => .nan
  | .num .posInf, .num _ => .num .posInf
  | .num .negInf, .num _ => .num .negInf
  | .num (.fin _), .num .posInf => .num .posInf
  | .num (.fin _), .num .negInf => .num .negInf
  | .nan, _ => .nan
  | .num _, .nan => .nan

/-- Go `a / b` on float32, for a divisor whose zero is `+0` (as `float32(n)`
gives it). -/
def Float.div : Float → Float → Float
  | .num (.fin a), .num (.fin b) =>
    if b = 0 then
      (if a = 0 then .nan else if 0 < a then .num .posInf else .num .negInf)
    else .num (round32 (a / b))
  | .num (.fin _), .num _ => .num (.fin 0)
  | .num .posInf, .num (.fin b) => if b < 0 then .num .negInf else .num .posInf
  | .num .negInf, .num (.fin b) => if b < 0 then .num .posInf else .num .negInf
  | .num _, .num _ => .nan
  | .nan, _ => .nan
  | .num _, .nan => .nan

/-! ## Data model -/

/-- Go `error` values are carried as their message. -/
abbrev Error := String

/-- Go `type Valute struct` (the `XMLName` field carries no data used here). -/
structure Valute where
  NumCode : Int
  CharCode : String
  Nominal : Int
  Name : String
  Value : Float
  deriving DecidableEq

/-- Go `type ValCurs struct`. -/
structure ValCurs where
  Valutes : List Valute
  deriving DecidableEq

/-- Go `type CurrencyValue struct`. -/
structure CurrencyValue where
  Value : Float
  Date : String
  deriving DecidableEq

/-- Go `type CurrencyInfo struct`. -/
structure CurrencyInfo where
  Code : String
  Name : String
  MaxValue : CurrencyValue
  MinValue : CurrencyValue
  TotalValue : Float
  Count : Int
  deriving DecidableEq

/-- The composite literal `CurrencyInfo{Code: code, Name: name}`: every field
that is not listed takes Go's zero value. -/
def CurrencyInfo.fresh (code name : String) : CurrencyInfo :=
  { Code := code, Name := name, MaxValue := ⟨Float.zero, ""⟩, MinValue := ⟨Float.zero, ""⟩,
    TotalValue := Float.zero, Count := 0 }

/-- Go `map[string]CurrencyInfo`. -/
abbrev Store := List (String × CurrencyInfo)

/-- The map read `currencyData[k]` with its `ok` flag. -/
def Store.get : Store → String → Option CurrencyInfo
  | [], _ => none
  | (k', v) :: rest, k => if k' = k then some v else Store.get rest k

/-- The map write `currencyData[k] = v`. -/
def Store.set : Store → String → CurrencyInfo → Store
  | [], k, v => [(k, v)]
  | (k', v') :: rest, k, v =>
    if k' = k then (k, v) :: rest else (k', v') :: Store.set rest k v

/-! ## `Float.UnmarshalXML` -/

/-- Go `strings.Replace(s, old, new, n)` for one-character `old` and `new` and
`n ≥ 0`: the first `n` occurrences of `old` are replaced, left to right. -/
def Replace : List Char → Char → Char → Nat → List Char
  | s, _, _, 0 => s
  | [], _, _, _ + 1 => []
  | c :: cs, old, new, n + 1 =>
    if c = old then new :: Replace cs old new n else c :: Replace cs old new (n + 1)

/-- Go `func (f *Float) UnmarshalXML`: `v` is the element text delivered by
`d.DecodeElement`, `ParseFloat` is `strconv.ParseFloat(·, 32)` with its
`float64` result or its error; the result is the value stored in `*f`, or the
returned error. -/
def UnmarshalXML (ParseFloat : String → Except Error Float) (v : String) :
    Except Error Float :=
  let str := String.mk (Replace v.data ',' '.' 1)
  match ParseFloat str with
  | .error err => .error err
  | .ok fv => .ok (Float.ofFloat64 fv)

/-! ## The aggregation loop of `fetchCurrencyData` -/

/-- The body of the inner loop between the map read and the map write (lines
138-149): the two sentinel-guarded updates of the extremes, then the running
sum and the counter. -/
def updateInfo (currencyInfo : CurrencyInfo) (valute : Valute) (dateStr : String) :
    CurrencyInfo :=
  let c1 : CurrencyInfo :=
    if valute.Value > currencyInfo.MaxValue.Value ∨
        Float.eq currencyInfo.MaxValue.Value Float.zero then
      { currencyInfo with MaxValue := { Value := valute.Value, Date := dateStr } }
    else currencyInfo
  let c2 : CurrencyInfo :=
    if valute.Value < c1.MinValue.Value ∨ Float.eq c1.MinValue.Value Float.zero then
      { c1 with MinValue := { Value := valute.Value, Date := dateStr } }
    else c1
  { c2 with TotalValue := Float.add c2.TotalValue valute.Value, Count := c2.Count + 1 }

/-- One iteration of `for _, valute := range valCurs.Valutes`: look the code up,
create the entry when it is missing, update it and write it back. -/
def processValute (currencyData : Store) (dateStr : String) (valute : Valute) : Store :=
  let currencyInfo :=
    match currencyData.get valute.CharCode with
    | some found => found
    | none => CurrencyInfo.fresh valute.CharCode valute.Name
  currencyData.set valute.CharCode (updateInfo currencyInfo valute dateStr)

/-- The inner loop `for _, valute := range valCurs.Valutes` for one day. -/
def processDay : Store → String → List Valute → Store
  | currencyData, _, [] => currencyData
  | currencyData, dateStr, valute :: rest =>
    processDay (processValute currencyData dateStr valute) dateStr rest

/-- The aggregation of a sequence of successfully decoded days, each a date
string with its records, in processing order. -/
def aggregate : Store → List (String × List Valute) → Store
  | currencyData, [] => currencyData
  | currencyData, (dateStr, valutes) :: rest =>
    aggregate (processDay currencyData dateStr valutes) rest

/-! ## Dates -/

/-- Go `time.Time`, reduced to what `AddDate` with day offsets acts on: the
number of the calendar day (counted from a fixed epoch, in the location of the
value) and the time within that day.  Time-zone transitions are outside the
model. -/
structure Time where
  day : Int
  nsec : Nat
  deriving DecidableEq

/-- Go `t.AddDate(0, 0, days)`: the same time of day, `days` calendar days
later. -/
def Time.AddDate (t : Time) (days : Int) : Time :=
  { t with day := t.day + days }

/-- The loop `for i := 0; i < 90; i++` that fills `previous90Days`, entered with
the loop counter `i` and the slice built so far. -/
def previous90DaysLoop (today : Time) (i : Nat) (previous90Days : List Time) : List Time :=
  if i < 90 then
    let date := today.AddDate (-(i : Int))
    previous90DaysLoop today (i + 1) (previous90Days ++ [date])
  else previous90Days
termination_by 90 - i

/-- The slice `previous90Days` built at the start of `fetchCurrencyData`. -/
def previous90Days (today : Time) : List Time :=
  previous90DaysLoop today 0 []

/-! ## Fetching -/

/-- Go `http.Request`, reduced to the parts the program sets. -/
structure Request where
  Method : String
  URL : String
  Header : List (String × String)
  deriving DecidableEq

/-- Go `req.Header.Set(key, value)`: the values of the key are replaced by the
one value. -/
def Request.setHeader (req : Request) (key value : String) : Request :=
  { req with Header := (key, value) :: req.Header.filter fun h => h.1 ≠ key }

/-- Go `http.Response`: reading the body (`ioutil.ReadAll(resp.Body)`) yields
its bytes or fails.  The deferred `Body.Close` calls run when
`fetchCurrencyData` returns and do not touch the store; a failing close ends the
process through `log.Fatal` and is outside the model, which describes the runs
in which the function returns. -/
structure Response where
  Body : Except Error String

/-- One `Valute` element as the XML tokenizer delivers it: the text of the
`Value` element is still undecoded. -/
structure RawValute where
  NumCode : Int
  CharCode : String
  Nominal : Int
  Name : String
  Value : String
  deriving DecidableEq

/-- What the program takes from outside: the clock, the date formatter, the
HTTP client, the XML tokenizer (with its charset reader) and the number
parser `strconv.ParseFloat(·, 32)`. -/
structure World where
  Now : Time
  Format : Time → String
  NewRequest : String → String → Except Error Request
  Do : Request → Except Error Response
  Elements : String → Except Error (List RawValute)
  ParseFloat : String → Except Error Float

/-- Decoding one `Valute` element: the `Value` field goes through
`Float.UnmarshalXML`, whose error aborts the decoding. -/
def decodeValute (w : World) (r : RawValute) : Except Error Valute :=
  match UnmarshalXML w.ParseFloat r.Value with
  | .error err => .error err
  | .ok f =>
    .ok { NumCode := r.NumCode, CharCode := r.CharCode, Nominal := r.Nominal,
          Name := r.Name, Value := f }

/-- Decoding the elements of a document in order; the first error ends it. -/
def decodeValutes (w : World) : List RawValute → Except Error (List Valute)
  | [] => .ok []
  | r :: rest =>
    match decodeValute w r with
    | .error err => .error err
    | .ok valute =>
      match decodeValutes w rest with
      | .error err => .error err
      | .ok valutes => .ok (valute :: valutes)

/-- Go `decoder.Decode(&valCurs)` on the body of a response. -/
def Decode (w : World) (body : String) : Except Error ValCurs :=
  match w.Elements body with
  | .error err => .error err
  | .ok raws =>
    match decodeValutes w raws with
    | .error err => .error err
    | .ok valutes => .ok { Valutes := valutes }

/-- The request URL for a formatted date. -/
def requestURL (dateStr : String) : String :=
  "http://www.cbr.ru/scripts/XML_daily_eng.asp?date_req=" ++ dateStr

/-- The `User-Agent` header the program sets on every request. -/
def userAgent : String :=
  "Mozilla/5.0 (Windows NT 10.0; Win64; x64; rv:89.0) Gecko/20100101 Firefox/89.0"

/-- The loop `for _, date := range previous90Days` of `fetchCurrencyData`: each
of the four failure points returns the store accumulated so far. -/
def fetchLoop (w : World) : List Time → Store → Store
  | [], currencyData => currencyData
  | date :: rest, currencyData =>
    let dateStr := w.Format date
    let url := requestURL dateStr
    match w.NewRequest "GET" url with
    | .error _ => currencyData
    | .ok req =>
      let req := req.setHeader "User-Agent" userAgent
      match w.Do req with
      | .error _ => currencyData
      | .ok resp =>
        match resp.Body with
        | .error _ => currencyData
        | .ok body =>
          match Decode w body with
          | .error _ => currencyData
          | .ok valCurs =>
            fetchLoop w rest (processDay currencyData dateStr valCurs.Valutes)

/-- Go `func fetchCurrencyData() map[string]CurrencyInfo`. -/
def fetchCurrencyData (w : World) : Store :=
  fetchLoop w (previous90Days w.Now) []

/-! ## Reporting -/

/-- The arguments of one `fmt.Printf` call of `analyzeCurrencyData`, before
formatting. -/
structure ReportLine where
  Name : String
  MaxValue : Float
  MaxDate : String
  MinValue : Float
  MinDate : String
  averageValue : Float
  deriving DecidableEq

/-- The quotient `currencyInfo.TotalValue / float32(currencyInfo.Count)`. -/
def averageValue (currencyInfo : CurrencyInfo) : Float :=
  Float.div currencyInfo.TotalValue (Float.ofInt currencyInfo.Count)

/-- Go `func analyzeCurrencyData`: one line per entry (the iteration order of a
Go map is unspecified; the model reports in insertion order). -/
def analyzeCurrencyData (currencyData : Store) : List ReportLine :=
  currencyData.map fun entry =>
    { Name := entry.2.Name,
      MaxValue := entry.2.MaxValue.Value, MaxDate := entry.2.MaxValue.Date,
      MinValue := entry.2.MinValue.Value, MinDate := entry.2.MinValue.Date,
      averageValue := averageValue entry.2 }

/-! ## Vocabulary of the properties -/

/-- The per-date fetch-and-decode as one function: the records of the day, or
the failure of one of the four steps. -/
def fetchDay (w : World) (date : Time) : Except Error (List Valute) :=
  match w.NewRequest "GET" (requestURL (w.Format date)) with
  | .error err => .error err
  | .ok req =>
    match w.Do (req.setHeader "User-Agent" userAgent) with
    | .error err => .error err
    | .ok resp =>
      match resp.Body with
      | .error err => .error err
      | .ok body =>
        match Decode w body with
        | .error err => .error err
        | .ok valCurs => .ok valCurs.Valutes

/-- The records of a date: those its fetch-and-decode delivers, none when it
fails. -/
def dayRecords (w : World) (date : Time) : List Valute :=
  match fetchDay w date with
  | .ok valutes => valutes
  | .error _ => []

/-- The days of a window that `fetchCurrencyData` aggregates: the dates before
the first one whose fetch-and-decode fails, each with its date string and
records. -/
def fetchedDays (w : World) : List Time → List (String × List Valute)
  | [] => []
  | date :: rest =>
    match fetchDay w date with
    | .error _ => []
    | .ok valutes => (w.Format date, valutes) :: fetchedDays w rest

/-- The observations of one currency code in a sequence of days, in processing
order: the date string of the day and the record. -/
def observations : List (String × List Valute) → String → List (String × Valute)
  | [], _ => []
  | (dateStr, valutes) :: rest, code =>
    ((valutes.filter fun v => v.CharCode = code).map fun v => (dateStr, v))
      ++ observations rest code

/-- The values of the observations of one code, in processing order. -/
def observedValues (days : List (String × List Valute)) (code : String) : List Float :=
  (observations days code).map fun o => o.2.Value

/-- The value `x` is the maximum of the list `vs`: it occurs in the list and
every value of the list is `<=` it (for floats the IEEE comparison, so a list
that holds NaN has no maximum). -/
def IsMaximumOf {α : Type} [LE α] (x : α) (vs : List α) : Prop :=
  x ∈ vs ∧ ∀ v ∈ vs, v ≤ x

/-- The value `x` is the minimum of the list `vs`. -/
def IsMinimumOf {α : Type} [LE α] (x : α) (vs : List α) : Prop :=
  x ∈ vs ∧ ∀ v ∈ vs, x ≤ v

instance {α : Type} [LE α] [DecidableEq α] [DecidableRel (fun a b : α => a ≤ b)]
    (x : α) (vs : List α) : Decidable (IsMaximumOf x vs) := by
  unfold IsMaximumOf; infer_instance

instance {α : Type} [LE α] [DecidableEq α] [DecidableRel (fun a b : α => a ≤ b)]
    (x : α) (vs : List α) : Decidable (IsMinimumOf x vs) := by
  unfold IsMinimumOf; infer_instance

/-- The date of the earliest-processed observation whose value equals `x`
(IEEE `==`). -/
def firstDateOf (os : List (String × Valute)) (x : Float) : Option String :=
  (os.find? fun o => decide (Float.eq o.2.Value x)).map fun o => o.1

/-- Every value observed after a value 0 is new: it is not 0 and was not
observed before that 0. -/
def FreshAfterZero (vs : List Float) : Prop :=
  ∀ pre post : List Float, vs = pre ++ Float.zero :: post →
    ∀ x ∈ post, x ∉ pre ∧ x ≠ Float.zero

/-- The number of days of a sequence on which a code appears. -/
def daysAppeared (days : List (String × List Valute)) (code : String) : Nat :=
  (days.filter fun d => d.2.any fun v => decide (v.CharCode = code)).length

/-- The float32 running sum of a list, from `0.0`, left to right. -/
def sum32 (vs : List Float) : Float :=
  vs.foldl Float.add Float.zero

/-- The rational `q` is a float32 value: rounding leaves it unchanged. -/
def Exact32 (q : ℚ) : Prop := round32 q = .fin q

/-! ## The entry of one code, step by step -/

/-- One step of the entry of a fixed code: what `processValute` does to the
entry of the code of the record. -/
def entryStep (cur : Option CurrencyInfo) (o : String × Valute) : Option CurrencyInfo :=
  some (updateInfo
    (match cur with
     | some found => found
     | none => CurrencyInfo.fresh o.2.CharCode o.2.Name) o.2 o.1)

/-- The entry of a code after a sequence of its observations. -/
def entryAfter (init : Option CurrencyInfo) (os : List (String × Valute)) :
    Option CurrencyInfo :=
  os.foldl entryStep init

/-- The values of a list of dated numbers. -/
def valuesOf (ps : List (String × ExtRat)) : List ExtRat :=
  ps.map fun p => p.2

/-- The date of the first of a list of dated numbers that has the value `x`. -/
def firstOf (ps : List (String × ExtRat)) (x : ExtRat) : Option String :=
  (ps.find? fun p => decide (p.2 = x)).map fun p => p.1

/-- The observations `os` carry no NaN and are the dated numbers `ps`. -/
def Linked (os : List (String × Valute)) (ps : List (String × ExtRat)) : Prop :=
  os.map (fun o => (o.1, o.2.Value)) = ps.map fun p => (p.1, Float.num p.2)

/-- The step of the stored maximum and its date on numbers: the guard of line
138. -/
def maxNext (m : ExtRat) (d : String) (p : String × ExtRat) : ExtRat × String :=
  if p.2 > m ∨ m = 0 then (p.2, p.1) else (m, d)

/-- The step of the stored minimum and its date on numbers: the guard of line
143. -/
def minNext (m : ExtRat) (d : String) (p : String × ExtRat) : ExtRat × String :=
  if p.2 < m ∨ m = 0 then (p.2, p.1) else (m, d)

/-- What the stored maximum `m` and its date `d` are after the dated numbers
`ps`.  Either the maximum of the values is not zero, and `m` is that maximum
with the date of its first occurrence; or the maximum is zero, and with `z` the
last zero and `post` what follows it, `m` is zero dated at `z` when `post` is
empty and else the maximum of `post` with the date of its first occurrence in
`post`. -/
def MaxState (m : ExtRat) (d : String) (ps : List (String × ExtRat)) : Prop :=
  (¬ IsMaximumOf 0 (valuesOf ps) ∧ IsMaximumOf m (valuesOf ps) ∧ firstOf ps m = some d) ∨
  (IsMaximumOf 0 (valuesOf ps) ∧
    ∃ (pre : List (String × ExtRat)) (z : String × ExtRat) (post : List (String × ExtRat)),
      ps = pre ++ z :: post ∧ z.2 = 0 ∧ (∀ p ∈ post, p.2 ≠ 0) ∧
      ((post = [] ∧ m = 0 ∧ d = z.1) ∨
        (post ≠ [] ∧ IsMaximumOf m (valuesOf post) ∧ firstOf post m = some d)))

/-- What the stored minimum `m` and its date `d` are after the dated numbers
`ps`: as `MaxState`, with the order reversed. -/
def MinState (m : ExtRat) (d : String) (ps : List (String × ExtRat)) : Prop :=
  (¬ IsMinimumOf 0 (valuesOf ps) ∧ IsMinimumOf m (valuesOf ps) ∧ firstOf ps m = some d) ∨
  (IsMinimumOf 0 (valuesOf ps) ∧
    ∃ (pre : List (String × ExtRat)) (z : String × ExtRat) (post : List (String × ExtRat)),
      ps = pre ++ z :: post ∧ z.2 = 0 ∧ (∀ p ∈ post, p.2 ≠ 0) ∧
      ((post = [] ∧ m = 0 ∧ d = z.1) ∨
        (post ≠ [] ∧ IsMinimumOf m (valuesOf post) ∧ firstOf post m = some d)))

/-! ## Scenarios -/

/-- A record of the US dollar with the given finite rate. -/
def usd (value : ℚ) : Valute :=
  { NumCode := 840, CharCode := "USD", Nominal := 1, Name := "US Dollar",
    Value := Float.ofRat value }

/-- A record of the euro with the given finite rate. -/
def eur (value : ℚ) : Valute :=
  { NumCode := 978, CharCode := "EUR", Nominal := 1, Name := "Euro",
    Value := Float.ofRat value }

/-- Two days of the US dollar, 90 on the first processed day and 95 on the
second. -/
def twoDays : List (String × List Valute) :=
  [("04/11/2026", [usd 90]), ("03/11/2026", [usd 95])]

/-- The entry of the US dollar after the two days of `twoDays`. -/
def twoDaysEntry : CurrencyInfo :=
  { Code := "USD", Name := "US Dollar",
    MaxValue := ⟨Float.ofRat 95, "03/11/2026"⟩, MinValue := ⟨Float.ofRat 90, "04/11/2026"⟩,
    TotalValue := Float.ofRat 185, Count := 2 }

/-- Three days on which the US dollar appears on the first and the third only. -/
def threeDays : List (String × List Valute) :=
  [("04/11/2026", [usd 90, eur 100]), ("03/11/2026", [eur 101]), ("02/11/2026", [usd 95])]

/-- Two days of the US dollar, 16777216 and then 1: the sum 16777217 is not a
float32 value. -/
def roundingDays : List (String × List Valute) :=
  [("04/11/2026", [usd 16777216]), ("03/11/2026", [usd 1])]

/-- The element of the scenario of a single day: the US dollar with the rate
text `90,5000`. -/
def rawUsd : RawValute :=
  { NumCode := 840, CharCode := "USD", Nominal := 1, Name := "US Dollar", Value := "90,5000" }

/-- The entry of the US dollar after the single day of the scenario. -/
def oneDayEntry : CurrencyInfo :=
  { Code := "USD", Name := "US Dollar",
    MaxValue := ⟨Float.ofRat (181 / 2), "04/11/2026"⟩,
    MinValue := ⟨Float.ofRat (181 / 2), "04/11/2026"⟩,
    TotalValue := Float.ofRat (181 / 2), Count := 1 }

/-- The formatter of the sample world: day 0 is 4 November 2026. -/
def sampleFormat (t : Time) : String :=
  if t.day = 0 then "04/11/2026"
  else if t.day = -1 then "03/11/2026"
  else if t.day = -2 then "02/11/2026"
  else "earlier"

/-- The number parser of the sample world: it knows the rate texts of the
scenarios, with the float32 nearest to each as `strconv.ParseFloat(·, 32)`
returns it, and reports every other text as an error. -/
def sampleParseFloat (s : String) : Except Error Float :=
  if s = "90.0000" then .ok (Float.ofRat 90)
  else if s = "95.0000" then .ok (Float.ofRat 95)
  else if s = "90.5000" then .ok (Float.ofRat (181 / 2))
  else if s = "65.4321" then .ok (Float.num (round32 (654321 / 10000)))
  else .error ("strconv.ParseFloat: parsing " ++ s.quote ++ ": invalid syntax")

/-- A world in which the service answers with the US dollar at `90,0000` for
4 November 2026 and at `95,0000` for 3 November 2026, and the request for
2 November 2026 (the third of the window) fails. -/
def sampleWorld : World :=
  { Now := { day := 0, nsec := 0 }
    Format := sampleFormat
    NewRequest := fun method url => .ok { Method := method, URL := url, Header := [] }
    Do := fun req =>
      if req.URL = requestURL "04/11/2026" then .ok { Body := .ok "first" }
      else if req.URL = requestURL "03/11/2026" then .ok { Body := .ok "second" }
      else .error "timeout"
    Elements := fun body =>
      if body = "first" then
        .ok [{ NumCode := 840, CharCode := "USD", Nominal := 1, Name := "US Dollar",
               Value := "90,0000" }]
      else
        .ok [{ NumCode := 840, CharCode := "USD", Nominal := 1, Name := "US Dollar",
               Value := "95,0000" }]
    ParseFloat := sampleParseFloat }

/-! ## The store as a map -/

theorem Store.get_set (s : Store) (k k' : String) (v : CurrencyInfo) :
    (Store.set s k v).get k' = if k = k' then some v else s.get k' := by
  induction s with
  | nil => simp [Store.set, Store.get]
  | cons p rest ih =>
    obtain ⟨k0, v0⟩ := p
    by_cases h0 : k0 = k
    · subst h0
      by_cases h1 : k0 = k' <;> simp [Store.set, Store.get, h1]
    · by_cases h1 : k0 = k'
      · subst h1
        have h2 : ¬ k = k0 := fun h => h0 h.symm
        simp [Store.set, Store.get, h0, h2]
      · simp [Store.set, Store.get, h0, h1, ih]

theorem Store.set_ne_nil (s : Store) (k : String) (v : CurrencyInfo) :
    Store.set s k v ≠ [] := by
  cases s with
  | nil => simp [Store.set]
  | cons p rest =>
    obtain ⟨k0, v0⟩ := p
    by_cases h0 : k0 = k <;> simp [Store.set, h0]

theorem Store.keys_set (s : Store) (k : String) (v : CurrencyInfo) (k' : String) :
    k' ∈ (Store.set s k v).map Prod.fst ↔ k' = k ∨ k' ∈ s.map Prod.fst := by
  induction s with
  | nil => simp [Store.set]
  | cons p rest ih =>
    obtain ⟨k0, v0⟩ := p
    by_cases h0 : k0 = k
    · subst h0
      simp [Store.set]
    · simp only [Store.set, h0, if_false, List.map_cons, List.mem_cons, ih]
      tauto

theorem Store.nodup_set (s : Store) (k : String) (v : CurrencyInfo)
    (h : (s.map Prod.fst).Nodup) : ((Store.set s k v).map Prod.fst).Nodup := by
  induction s with
  | nil => simp [Store.set]
  | cons p rest ih =>
    obtain ⟨k0, v0⟩ := p
    simp only [List.map_cons, List.nodup_cons] at h
    by_cases h0 : k0 = k
    · subst h0
      simp only [Store.set, if_true, List.map_cons, List.nodup_cons]
      exact h
    · simp only [Store.set, h0, if_false, List.map_cons, List.nodup_cons]
      refine ⟨?_, ih h.2⟩
      intro hmem
      rcases (Store.keys_set rest k v k0).1 hmem with h1 | h1
      · exact h0 h1
      · exact h.1 h1

theorem Store.get_of_mem (s : Store) (h : (s.map Prod.fst).Nodup)
    (p : String × CurrencyInfo) (hp : p ∈ s) : s.get p.1 = some p.2 := by
  induction s with
  | nil => simp at hp
  | cons q rest ih =>
    obtain ⟨k0, v0⟩ := q
    simp only [List.map_cons, List.nodup_cons] at h
    rcases List.mem_cons.1 hp with h1 | h1
    · subst h1
      simp [Store.get]
    · have hne : ¬ k0 = p.1 := by
        intro h2
        apply h.1
        rw [h2]
        exact List.mem_map_of_mem Prod.fst h1
      simp [Store.get, hne, ih h.2 h1]

/-! ## The entry of one code -/

theorem processValute_get (cd : Store) (dateStr : String) (valute : Valute) (code : String) :
    (processValute cd dateStr valute).get code =
      if valute.CharCode = code then entryStep (cd.get code) (dateStr, valute)
      else cd.get code := by
  unfold processValute
  rw [Store.get_set]
  by_cases h : valute.CharCode = code
  · subst h
    simp only [if_true, entryStep]
  · simp [h]

theorem processDay_get (valutes : List Valute) (cd : Store) (dateStr code : String) :
    (processDay cd dateStr valutes).get code =
      entryAfter (cd.get code)
        ((valutes.filter fun v => v.CharCode = code).map fun v => (dateStr, v)) := by
  induction valutes generalizing cd with
  | nil => simp [processDay, entryAfter]
  | cons v rest ih =>
    simp only [processDay]
    rw [ih, processValute_get]
    by_cases h : v.CharCode = code
    · simp [h, entryAfter, List.filter_cons]
    · simp [h, entryAfter, List.filter_cons]

theorem entryAfter_append (init : Option CurrencyInfo) (xs ys : List (String × Valute)) :
    entryAfter init (xs ++ ys) = entryAfter (entryAfter init xs) ys := by
  simp [entryAfter, List.foldl_append]

theorem aggregate_get (days : List (String × List Valute)) (cd : Store) (code : String) :
    (aggregate cd days).get code = entryAfter (cd.get code) (observations days code) := by
  induction days generalizing cd with
  | nil => simp [aggregate, observations, entryAfter]
  | cons d rest ih =>
    obtain ⟨dateStr, valutes⟩ := d
    simp only [aggregate, observations]
    rw [ih, processDay_get, entryAfter_append]

theorem entryAfter_snoc (init : Option CurrencyInfo) (os : List (String × Valute))
    (o : String × Valute) :
    entryAfter init (os ++ [o]) = entryStep (entryAfter init os) o := by
  simp [entryAfter, List.foldl_append]

/-- Induction principle for the entry of a code: a property that holds after
the first observation and is kept by every later one holds after every
non-empty sequence of observations. -/
theorem entryAfter_induction (P : CurrencyInfo → List (String × Valute) → Prop)
    (h0 : ∀ o : String × Valute,
      P (updateInfo (CurrencyInfo.fresh o.2.CharCode o.2.Name) o.2 o.1) [o])
    (hstep : ∀ (e : CurrencyInfo) (os : List (String × Valute)) (o : String × Valute),
      os ≠ [] → P e os → P (updateInfo e o.2 o.1) (os ++ [o]))
    (os : List (String × Valute)) (hne : os ≠ []) :
    ∃ e, entryAfter none os = some e ∧ P e os := by
  induction os using List.reverseRecOn with
  | nil => exact absurd rfl hne
  | append_singleton os o ih =>
    rw [entryAfter_snoc]
    by_cases hos : os = []
    · subst hos
      exact ⟨_, rfl, by simpa using h0 o⟩
    · obtain ⟨e, he, hP⟩ := ih hos
      rw [he]
      exact ⟨_, rfl, hstep e os o hos hP⟩

theorem entryAfter_nil_iff (os : List (String × Valute)) :
    entryAfter none os = none ↔ os = [] := by
  constructor
  · intro h
    by_contra hne
    obtain ⟨e, he, -⟩ := entryAfter_induction (fun _ _ => True)
      (fun _ => trivial) (fun _ _ _ _ _ => trivial) os hne
    rw [h] at he
    exact Option.noConfusion he
  · rintro rfl
    rfl

theorem updateInfo_MaxValue (e : CurrencyInfo) (v : Valute) (d : String) :
    (updateInfo e v d).MaxValue =
      if v.Value > e.MaxValue.Value ∨ Float.eq e.MaxValue.Value Float.zero then ⟨v.Value, d⟩
      else e.MaxValue := by
  unfold updateInfo
  dsimp only
  split_ifs <;> rfl

theorem updateInfo_MinValue (e : CurrencyInfo) (v : Valute) (d : String) :
    (updateInfo e v d).MinValue =
      if v.Value < e.MinValue.Value ∨ Float.eq e.MinValue.Value Float.zero then ⟨v.Value, d⟩
      else e.MinValue := by
  unfold updateInfo
  dsimp only
  split_ifs <;> rfl

theorem updateInfo_Count (e : CurrencyInfo) (v : Valute) (d : String) :
    (updateInfo e v d).Count = e.Count + 1 := by
  unfold updateInfo
  dsimp only
  split_ifs <;> rfl

theorem updateInfo_TotalValue (e : CurrencyInfo) (v : Valute) (d : String) :
    (updateInfo e v d).TotalValue = Float.add e.TotalValue v.Value := by
  unfold updateInfo
  dsimp only
  split_ifs <;> rfl

/-! ## Maximum and minimum of numbers -/

theorem isMaximumOf_unique {α : Type} [PartialOrder α] {x y : α} {vs : List α}
    (hx : IsMaximumOf x vs) (hy : IsMaximumOf y vs) : x = y :=
  le_antisymm (hy.2 x hx.1) (hx.2 y hy.1)

theorem isMinimumOf_unique {α : Type} [PartialOrder α] {x y : α} {vs : List α}
    (hx : IsMinimumOf x vs) (hy : IsMinimumOf y vs) : x = y :=
  le_antisymm (hx.2 y hy.1) (hy.2 x hx.1)

theorem isMaximumOf_snoc {α : Type} [LE α] {x v : α} {vs : List α} :
    IsMaximumOf x (vs ++ [v]) ↔ (x ∈ vs ∨ x = v) ∧ (∀ u ∈ vs, u ≤ x) ∧ v ≤ x := by
  unfold IsMaximumOf
  simp only [List.mem_append, List.mem_singleton]
  constructor
  · rintro ⟨h1, h2⟩
    exact ⟨h1, fun u hu => h2 u (Or.inl hu), h2 v (Or.inr rfl)⟩
  · rintro ⟨h1, h2, h3⟩
    refine ⟨h1, ?_⟩
    rintro u (hu | rfl)
    · exact h2 u hu
    · exact h3

theorem isMinimumOf_snoc {α : Type} [LE α] {x v : α} {vs : List α} :
    IsMinimumOf x (vs ++ [v]) ↔ (x ∈ vs ∨ x = v) ∧ (∀ u ∈ vs, x ≤ u) ∧ x ≤ v := by
  unfold IsMinimumOf
  simp only [List.mem_append, List.mem_singleton]
  constructor
  · rintro ⟨h1, h2⟩
    exact ⟨h1, fun u hu => h2 u (Or.inl hu), h2 v (Or.inr rfl)⟩
  · rintro ⟨h1, h2, h3⟩
    refine ⟨h1, ?_⟩
    rintro u (hu | rfl)
    · exact h2 u hu
    · exact h3

theorem valuesOf_snoc (ps : List (String × ExtRat)) (p : String × ExtRat) :
    valuesOf (ps ++ [p]) = valuesOf ps ++ [p.2] := by
  simp [valuesOf]

theorem mem_valuesOf {ps : List (String × ExtRat)} {x : ExtRat} :
    x ∈ valuesOf ps ↔ ∃ p ∈ ps, p.2 = x := by
  simp [valuesOf]

theorem firstOf_snoc_found (ps : List (String × ExtRat)) (p : String × ExtRat)
    (x : ExtRat) (d : String) (h : firstOf ps x = some d) :
    firstOf (ps ++ [p]) x = some d := by
  unfold firstOf at *
  rw [List.find?_append]
  cases hf : ps.find? fun p => decide (p.2 = x) with
  | none => rw [hf] at h; simp at h
  | some found => rw [hf] at h; simpa using h

theorem firstOf_snoc_new (ps : List (String × ExtRat)) (p : String × ExtRat)
    (h : p.2 ∉ valuesOf ps) : firstOf (ps ++ [p]) p.2 = some p.1 := by
  unfold firstOf
  rw [List.find?_append]
  have hnone : (ps.find? fun q => decide (q.2 = p.2)) = none := by
    rw [List.find?_eq_none]
    intro q hq
    have : q.2 ≠ p.2 := fun hqp => h (mem_valuesOf.2 ⟨q, hq, hqp⟩)
    simpa using this
  rw [hnone]
  simp

theorem firstOf_append_new (pre post : List (String × ExtRat)) (x : ExtRat)
    (h : x ∉ valuesOf pre) : firstOf (pre ++ post) x = firstOf post x := by
  unfold firstOf
  rw [List.find?_append]
  have hnone : (pre.find? fun q => decide (q.2 = x)) = none := by
    rw [List.find?_eq_none]
    intro q hq
    have : q.2 ≠ x := fun hqp => h (mem_valuesOf.2 ⟨q, hq, hqp⟩)
    simpa using this
  rw [hnone]
  simp

/-! ## The state of the stored maximum -/

theorem maxState_new (ps : List (String × ExtRat)) (p : String × ExtRat)
    (hlt : ∀ u ∈ valuesOf ps, u < p.2) (hv : p.2 ≠ 0) :
    MaxState p.2 p.1 (ps ++ [p]) := by
  left
  rw [valuesOf_snoc]
  refine ⟨?_, isMaximumOf_snoc.2 ⟨Or.inr rfl, fun u hu => le_of_lt (hlt u hu), le_refl _⟩, ?_⟩
  · intro h0
    obtain ⟨hmem, -, hle⟩ := isMaximumOf_snoc.1 h0
    rcases hmem with hmem | hmem
    · exact absurd (hlt 0 hmem) (not_lt.2 hle)
    · exact hv hmem.symm
  · apply firstOf_snoc_new
    intro hmem
    exact lt_irrefl _ (hlt _ hmem)

theorem maxState_zero (ps : List (String × ExtRat)) (p : String × ExtRat)
    (hle : ∀ u ∈ valuesOf ps, u ≤ 0) (hv : p.2 = 0) :
    MaxState p.2 p.1 (ps ++ [p]) := by
  right
  rw [valuesOf_snoc]
  refine ⟨isMaximumOf_snoc.2 ⟨Or.inr hv.symm, hle, le_of_eq hv⟩, ps, p, [], rfl, hv, ?_,
    Or.inl ⟨rfl, hv, rfl⟩⟩
  intro q hq
  simp at hq

theorem maxState_first (p : String × ExtRat) :
    MaxState (maxNext 0 "" p).1 (maxNext 0 "" p).2 [p] := by
  have h : maxNext 0 "" p = (p.2, p.1) := by simp [maxNext]
  rw [h]
  by_cases hv : p.2 = 0
  · exact maxState_zero [] p (by simp [valuesOf]) hv
  · exact maxState_new [] p (by simp [valuesOf]) hv

theorem maxState_step (m : ExtRat) (d : String) (ps : List (String × ExtRat))
    (p : String × ExtRat) (h : MaxState m d ps) :
    MaxState (maxNext m d p).1 (maxNext m d p).2 (ps ++ [p]) := by
  rcases h with ⟨hn0, hmax, hd⟩ | ⟨h0, pre, z, post, hps, hz, hpost, hcase⟩
  · have hm0 : m ≠ 0 := fun hm => hn0 (hm ▸ hmax)
    by_cases h1 : p.2 > m
    · have hnext : maxNext m d p = (p.2, p.1) := by simp [maxNext, h1]
      rw [hnext]
      have hlt : ∀ u ∈ valuesOf ps, u < p.2 := fun u hu => lt_of_le_of_lt (hmax.2 u hu) h1
      by_cases hv : p.2 = 0
      · exact maxState_zero ps p (fun u hu => hv ▸ le_of_lt (hlt u hu)) hv
      · exact maxState_new ps p hlt hv
    · have hnext : maxNext m d p = (m, d) := by simp [maxNext, h1, hm0]
      rw [hnext]
      left
      rw [valuesOf_snoc]
      refine ⟨?_, isMaximumOf_snoc.2 ⟨Or.inl hmax.1, hmax.2, not_lt.1 h1⟩,
        firstOf_snoc_found ps p m d hd⟩
      intro h0
      obtain ⟨hmem, hub, hle⟩ := isMaximumOf_snoc.1 h0
      rcases hmem with hmem | hmem
      · exact hn0 ⟨hmem, hub⟩
      · have h2 : p.2 ≤ m := not_lt.1 h1
        have h3 : m ≤ 0 := hub m hmax.1
        exact hm0 (le_antisymm h3 (hmem ▸ h2))
  · have hle : ∀ u ∈ valuesOf ps, u ≤ 0 := h0.2
    have hpos : p.2 > 0 → MaxState p.2 p.1 (ps ++ [p]) := fun hv =>
      maxState_new ps p (fun u hu => lt_of_le_of_lt (hle u hu) hv) (ne_of_gt hv)
    have hzero : IsMaximumOf 0 (valuesOf (ps ++ [p])) ↔ p.2 ≤ 0 := by
      rw [valuesOf_snoc]
      constructor
      · intro h
        exact (isMaximumOf_snoc.1 h).2.2
      · intro h
        exact isMaximumOf_snoc.2 ⟨Or.inl h0.1, hle, h⟩
    rcases hcase with ⟨hnil, hm, hdz⟩ | ⟨hne, hpm, hpd⟩
    · have hnext : maxNext m d p = (p.2, p.1) := by simp [maxNext, hm]
      rw [hnext]
      rcases lt_trichotomy p.2 0 with hv | hv | hv
      · right
        refine ⟨hzero.2 (le_of_lt hv), pre, z, [p], ?_, hz, ?_, Or.inr ⟨by simp, ?_, ?_⟩⟩
        · rw [hps, hnil]
          simp
        · intro q hq
          rw [List.mem_singleton.1 hq]
          exact ne_of_lt hv
        · exact ⟨by simp [valuesOf], by simp [valuesOf]⟩
        · simp [firstOf]
      · exact maxState_zero ps p hle hv
      · exact hpos hv
    · have hmpost : m ∈ valuesOf post := hpm.1
      have hmps : m ∈ valuesOf ps := by
        obtain ⟨q, hq, hqm⟩ := mem_valuesOf.1 hmpost
        refine mem_valuesOf.2 ⟨q, ?_, hqm⟩
        rw [hps]
        exact List.mem_append_right _ (List.mem_cons_of_mem _ hq)
      have hm0 : m ≠ 0 := by
        obtain ⟨q, hq, hqm⟩ := mem_valuesOf.1 hmpost
        exact hqm ▸ hpost q hq
      have hmneg : m < 0 := lt_of_le_of_ne (hle m hmps) hm0
      have hsplit : ps ++ [p] = pre ++ z :: (post ++ [p]) := by
        rw [hps]
        simp
      have hpost' : p.2 ≠ 0 → ∀ q ∈ post ++ [p], q.2 ≠ 0 := by
        intro hv q hq
        rcases List.mem_append.1 hq with hq | hq
        · exact hpost q hq
        · rw [List.mem_singleton.1 hq]
          exact hv
      by_cases h1 : p.2 > m
      · have hnext : maxNext m d p = (p.2, p.1) := by simp [maxNext, h1]
        rw [hnext]
        rcases lt_trichotomy p.2 0 with hv | hv | hv
        · right
          refine ⟨hzero.2 (le_of_lt hv), pre, z, post ++ [p], hsplit, hz,
            hpost' (ne_of_lt hv), Or.inr ⟨by simp, ?_, ?_⟩⟩
          · rw [valuesOf_snoc]
            exact isMaximumOf_snoc.2 ⟨Or.inr rfl,
              fun u hu => le_of_lt (lt_of_le_of_lt (hpm.2 u hu) h1), le_refl _⟩
          · apply firstOf_snoc_new
            intro hmem
            exact lt_irrefl _ (lt_of_le_of_lt (hpm.2 _ hmem) h1)
        · exact maxState_zero ps p hle hv
        · exact hpos hv
      · have hnext : maxNext m d p = (m, d) := by simp [maxNext, h1, hm0]
        rw [hnext]
        have hvm : p.2 ≤ m := not_lt.1 h1
        have hv : p.2 < 0 := lt_of_le_of_lt hvm hmneg
        right
        refine ⟨hzero.2 (le_of_lt hv), pre, z, post ++ [p], hsplit, hz,
          hpost' (ne_of_lt hv), Or.inr ⟨by simp, ?_, firstOf_snoc_found post p m d hpd⟩⟩
        rw [valuesOf_snoc]
        exact isMaximumOf_snoc.2 ⟨Or.inl hpm.1, hpm.2, hvm⟩

theorem maxState_mem {m : ExtRat} {d : String} {ps : List (String × ExtRat)}
    (h : MaxState m d ps) : m ∈ valuesOf ps := by
  rcases h with ⟨-, hmax, -⟩ | ⟨h0, pre, z, post, hps, hz, hpost, hcase⟩
  · exact hmax.1
  · rcases hcase with ⟨-, hm, -⟩ | ⟨-, hpm, -⟩
    · exact hm ▸ h0.1
    · obtain ⟨q, hq, hqm⟩ := mem_valuesOf.1 hpm.1
      refine mem_valuesOf.2 ⟨q, ?_, hqm⟩
      rw [hps]
      exact List.mem_append_right _ (List.mem_cons_of_mem _ hq)

theorem maxState_iff {m : ExtRat} {d : String} {ps : List (String × ExtRat)}
    (h : MaxState m d ps) :
    IsMaximumOf m (valuesOf ps) ↔
      (¬ IsMaximumOf 0 (valuesOf ps) ∨ (valuesOf ps).getLast? = some 0) := by
  rcases h with ⟨hn0, hmax, -⟩ | ⟨h0, pre, z, post, hps, hz, hpost, hcase⟩
  · exact ⟨fun _ => Or.inl hn0, fun _ => hmax⟩
  · rcases hcase with ⟨hnil, hm, -⟩ | ⟨hne, hpm, -⟩
    · refine ⟨fun _ => Or.inr ?_, fun _ => hm ▸ h0⟩
      have : ps = pre ++ [z] := by rw [hps, hnil]
      rw [this, valuesOf_snoc, List.getLast?_concat, hz]
    · have hmpost := hpm.1
      obtain ⟨q, hq, hqm⟩ := mem_valuesOf.1 hmpost
      have hm0 : m ≠ 0 := hqm ▸ hpost q hq
      constructor
      · intro hmax
        exact absurd (isMaximumOf_unique hmax h0) hm0
      · rintro (hn | hlast)
        · exact absurd h0 hn
        · exfalso
          rcases List.eq_nil_or_concat post with hnil | ⟨init, l, hl⟩
          · exact hne hnil
          · rw [List.concat_eq_append] at hl
            have hsplit : ps = (pre ++ z :: init) ++ [l] := by
              rw [hps, hl]
              simp
            rw [hsplit, valuesOf_snoc, List.getLast?_concat] at hlast
            have hlmem : l ∈ post := by
              rw [hl]
              exact List.mem_append_right _ (List.mem_singleton.2 rfl)
            exact hpost l hlmem (Option.some.inj hlast)

theorem maxState_of_ne_zero {m : ExtRat} {d : String} {ps : List (String × ExtRat)}
    (h : MaxState m d ps) (hn0 : ¬ IsMaximumOf 0 (valuesOf ps)) :
    IsMaximumOf m (valuesOf ps) ∧ firstOf ps m = some d := by
  rcases h with ⟨-, hmax, hd⟩ | ⟨h0, -⟩
  · exact ⟨hmax, hd⟩
  · exact absurd h0 hn0

theorem maxState_of_sign {m : ExtRat} {d : String} {ps : List (String × ExtRat)}
    (h : MaxState m d ps)
    (hs : (∀ v ∈ valuesOf ps, v ≠ 0) ∨ (∀ v ∈ valuesOf ps, 0 ≤ v)) :
    IsMaximumOf m (valuesOf ps) := by
  by_cases h0 : IsMaximumOf 0 (valuesOf ps)
  · rcases hs with hs | hs
    · exact absurd rfl (hs 0 h0.1)
    · have hm := maxState_mem h
      have : m = 0 := le_antisymm (h0.2 m hm) (hs m hm)
      exact this ▸ h0
  · exact (maxState_of_ne_zero h h0).1

theorem firstOf_of_fresh {m : ExtRat} {d : String} {ps : List (String × ExtRat)}
    (hps : ∃ (pre : List (String × ExtRat)) (z : String × ExtRat)
      (post : List (String × ExtRat)),
      ps = pre ++ z :: post ∧ z.2 = 0 ∧ (∀ p ∈ post, p.2 ≠ 0) ∧
      ((post = [] ∧ m = 0 ∧ d = z.1) ∨
        (post ≠ [] ∧ m ∈ valuesOf post ∧ firstOf post m = some d)))
    (hfresh : ∀ pre post : List ExtRat, valuesOf ps = pre ++ 0 :: post →
      ∀ x ∈ post, x ∉ pre ∧ x ≠ 0) :
    firstOf ps m = some d := by
  obtain ⟨pre, z, post, hps, hz, hpost, hcase⟩ := hps
  rcases hcase with ⟨hnil, hm, hdz⟩ | ⟨hne, hpm, hpd⟩
  · have hsplit : ps = pre ++ [z] := by rw [hps, hnil]
    have hpre : z.2 ∉ valuesOf pre := by
      intro hmem
      obtain ⟨q, hq, hqz⟩ := mem_valuesOf.1 hmem
      obtain ⟨s, t, hst⟩ := List.append_of_mem hq
      have hv : valuesOf ps = valuesOf s ++ 0 :: (valuesOf t ++ [z.2]) := by
        rw [hsplit, hst]
        simp [valuesOf, hqz, hz]
      have := (hfresh _ _ hv z.2 (by simp)).2
      exact this hz
    rw [hsplit, hm, ← hz, hdz]
    exact firstOf_snoc_new pre z hpre
  · have hv : valuesOf ps = valuesOf pre ++ 0 :: valuesOf post := by
      rw [hps]
      simp [valuesOf, hz]
    obtain ⟨hmpre, hm0⟩ := hfresh _ _ hv m hpm
    rw [hps, firstOf_append_new pre (z :: post) m hmpre]
    have hzm : ¬ z.2 = m := fun h => hm0 (h ▸ hz)
    unfold firstOf at *
    simp only [List.find?_cons, hzm, decide_False]
    exact hpd

theorem maxState_of_fresh {m : ExtRat} {d : String} {ps : List (String × ExtRat)}
    (h : MaxState m d ps)
    (hfresh : ∀ pre post : List ExtRat, valuesOf ps = pre ++ 0 :: post →
      ∀ x ∈ post, x ∉ pre ∧ x ≠ 0) :
    firstOf ps m = some d := by
  rcases h with ⟨-, -, hd⟩ | ⟨-, pre, z, post, hps, hz, hpost, hcase⟩
  · exact hd
  · refine firstOf_of_fresh ⟨pre, z, post, hps, hz, hpost, ?_⟩ hfresh
    rcases hcase with hc | ⟨hne, hpm, hpd⟩
    · exact Or.inl hc
    · exact Or.inr ⟨hne, hpm.1, hpd⟩

/-! ## The state of the stored minimum -/

theorem minState_new (ps : List (String × ExtRat)) (p : String × ExtRat)
    (hlt : ∀ u ∈ valuesOf ps, p.2 < u) (hv : p.2 ≠ 0) :
    MinState p.2 p.1 (ps ++ [p]) := by
  left
  rw [valuesOf_snoc]
  refine ⟨?_, isMinimumOf_snoc.2 ⟨Or.inr rfl, fun u hu => le_of_lt (hlt u hu), le_refl _⟩, ?_⟩
  · intro h0
    obtain ⟨hmem, -, hle⟩ := isMinimumOf_snoc.1 h0
    rcases hmem with hmem | hmem
    · exact absurd (hlt 0 hmem) (not_lt.2 hle)
    · exact hv hmem.symm
  · apply firstOf_snoc_new
    intro hmem
    exact lt_irrefl _ (hlt _ hmem)

theorem minState_zero (ps : List (String × ExtRat)) (p : String × ExtRat)
    (hle : ∀ u ∈ valuesOf ps, 0 ≤ u) (hv : p.2 = 0) :
    MinState p.2 p.1 (ps ++ [p]) := by
  right
  rw [valuesOf_snoc]
  refine ⟨isMinimumOf_snoc.2 ⟨Or.inr hv.symm, hle, le_of_eq hv.symm⟩, ps, p, [], rfl, hv, ?_,
    Or.inl ⟨rfl, hv, rfl⟩⟩
  intro q hq
  simp at hq

theorem minState_first (p : String × ExtRat) :
    MinState (minNext 0 "" p).1 (minNext 0 "" p).2 [p] := by
  have h : minNext 0 "" p = (p.2, p.1) := by simp [minNext]
  rw [h]
  by_cases hv : p.2 = 0
  · exact minState_zero [] p (by simp [valuesOf]) hv
  · exact minState_new [] p (by simp [valuesOf]) hv

theorem minState_step (m : ExtRat) (d : String) (ps : List (String × ExtRat))
    (p : String × ExtRat) (h : MinState m d ps) :
    MinState (minNext m d p).1 (minNext m d p).2 (ps ++ [p]) := by
  rcases h with ⟨hn0, hmin, hd⟩ | ⟨h0, pre, z, post, hps, hz, hpost, hcase⟩
  · have hm0 : m ≠ 0 := fun hm => hn0 (hm ▸ hmin)
    by_cases h1 : p.2 < m
    · have hnext : minNext m d p = (p.2, p.1) := by simp [minNext, h1]
      rw [hnext]
      have hlt : ∀ u ∈ valuesOf ps, p.2 < u := fun u hu => lt_of_lt_of_le h1 (hmin.2 u hu)
      by_cases hv : p.2 = 0
      · exact minState_zero ps p (fun u hu => hv ▸ le_of_lt (hlt u hu)) hv
      · exact minState_new ps p hlt hv
    · have hnext : minNext m d p = (m, d) := by simp [minNext, h1, hm0]
      rw [hnext]
      left
      rw [valuesOf_snoc]
      refine ⟨?_, isMinimumOf_snoc.2 ⟨Or.inl hmin.1, hmin.2, not_lt.1 h1⟩,
        firstOf_snoc_found ps p m d hd⟩
      intro h0
      obtain ⟨hmem, hlb, hle⟩ := isMinimumOf_snoc.1 h0
      rcases hmem with hmem | hmem
      · exact hn0 ⟨hmem, hlb⟩
      · have h2 : m ≤ p.2 := not_lt.1 h1
        have h3 : 0 ≤ m := hlb m hmin.1
        exact hm0 (le_antisymm (hmem ▸ h2) h3)
  · have hle : ∀ u ∈ valuesOf ps, 0 ≤ u := h0.2
    have hneg : p.2 < 0 → MinState p.2 p.1 (ps ++ [p]) := fun hv =>
      minState_new ps p (fun u hu => lt_of_lt_of_le hv (hle u hu)) (ne_of_lt hv)
    have hzero : IsMinimumOf 0 (valuesOf (ps ++ [p])) ↔ 0 ≤ p.2 := by
      rw [valuesOf_snoc]
      constructor
      · intro h
        exact (isMinimumOf_snoc.1 h).2.2
      · intro h
        exact isMinimumOf_snoc.2 ⟨Or.inl h0.1, hle, h⟩
    rcases hcase with ⟨hnil, hm, hdz⟩ | ⟨hne, hpm, hpd⟩
    · have hnext : minNext m d p = (p.2, p.1) := by simp [minNext, hm]
      rw [hnext]
      rcases lt_trichotomy p.2 0 with hv | hv | hv
      · exact hneg hv
      · exact minState_zero ps p hle hv
      · right
        refine ⟨hzero.2 (le_of_lt hv), pre, z, [p], ?_, hz, ?_, Or.inr ⟨by simp, ?_, ?_⟩⟩
        · rw [hps, hnil]
          simp
        · intro q hq
          rw [List.mem_singleton.1 hq]
          exact ne_of_gt hv
        · exact ⟨by simp [valuesOf], by simp [valuesOf]⟩
        · simp [firstOf]
    · have hmpost : m ∈ valuesOf post := hpm.1
      have hmps : m ∈ valuesOf ps := by
        obtain ⟨q, hq, hqm⟩ := mem_valuesOf.1 hmpost
        refine mem_valuesOf.2 ⟨q, ?_, hqm⟩
        rw [hps]
        exact List.mem_append_right _ (List.mem_cons_of_mem _ hq)
      have hm0 : m ≠ 0 := by
        obtain ⟨q, hq, hqm⟩ := mem_valuesOf.1 hmpost
        exact hqm ▸ hpost q hq
      have hmpos : 0 < m := lt_of_le_of_ne (hle m hmps) (Ne.symm hm0)
      have hsplit : ps ++ [p] = pre ++ z :: (post ++ [p]) := by
        rw [hps]
        simp
      have hpost' : p.2 ≠ 0 → ∀ q ∈ post ++ [p], q.2 ≠ 0 := by
        intro hv q hq
        rcases List.mem_append.1 hq with hq | hq
        · exact hpost q hq
        · rw [List.mem_singleton.1 hq]
          exact hv
      by_cases h1 : p.2 < m
      · have hnext : minNext m d p = (p.2, p.1) := by simp [minNext, h1]
        rw [hnext]
        rcases lt_trichotomy p.2 0 with hv | hv | hv
        · exact hneg hv
        · exact minState_zero ps p hle hv
        · right
          refine ⟨hzero.2 (le_of_lt hv), pre, z, post ++ [p], hsplit, hz,
            hpost' (ne_of_gt hv), Or.inr ⟨by simp, ?_, ?_⟩⟩
          · rw [valuesOf_snoc]
            exact isMinimumOf_snoc.2 ⟨Or.inr rfl,
              fun u hu => le_of_lt (lt_of_lt_of_le h1 (hpm.2 u hu)), le_refl _⟩
          · apply firstOf_snoc_new
            intro hmem
            exact lt_irrefl _ (lt_of_lt_of_le h1 (hpm.2 _ hmem))
      · have hnext : minNext m d p = (m, d) := by simp [minNext, h1, hm0]
        rw [hnext]
        have hvm : m ≤ p.2 := not_lt.1 h1
        have hv : 0 < p.2 := lt_of_lt_of_le hmpos hvm
        right
        refine ⟨hzero.2 (le_of_lt hv), pre, z, post ++ [p], hsplit, hz,
          hpost' (ne_of_gt hv), Or.inr ⟨by simp, ?_, firstOf_snoc_found post p m d hpd⟩⟩
        rw [valuesOf_snoc]
        exact isMinimumOf_snoc.2 ⟨Or.inl hpm.1, hpm.2, hvm⟩

theorem minState_mem {m : ExtRat} {d : String} {ps : List (String × ExtRat)}
    (h : MinState m d ps) : m ∈ valuesOf ps := by
  rcases h with ⟨-, hmin, -⟩ | ⟨h0, pre, z, post, hps, hz, hpost, hcase⟩
  · exact hmin.1
  · rcases hcase with ⟨-, hm, -⟩ | ⟨-, hpm, -⟩
    · exact hm ▸ h0.1
    · obtain ⟨q, hq, hqm⟩ := mem_valuesOf.1 hpm.1
      refine mem_valuesOf.2 ⟨q, ?_, hqm⟩
      rw [hps]
      exact List.mem_append_right _ (List.mem_cons_of_mem _ hq)

theorem minState_iff {m : ExtRat} {d : String} {ps : List (String × ExtRat)}
    (h : MinState m d ps) :
    IsMinimumOf m (valuesOf ps) ↔
      (¬ IsMinimumOf 0 (valuesOf ps) ∨ (valuesOf ps).getLast? = some 0) := by
  rcases h with ⟨hn0, hmin, -⟩ | ⟨h0, pre, z, post, hps, hz, hpost, hcase⟩
  · exact ⟨fun _ => Or.inl hn0, fun _ => hmin⟩
  · rcases hcase with ⟨hnil, hm, -⟩ | ⟨hne, hpm, -⟩
    · refine ⟨fun _ => Or.inr ?_, fun _ => hm ▸ h0⟩
      have : ps = pre ++ [z] := by rw [hps, hnil]
      rw [this, valuesOf_snoc, List.getLast?_concat, hz]
    · have hmpost := hpm.1
      obtain ⟨q, hq, hqm⟩ := mem_valuesOf.1 hmpost
      have hm0 : m ≠ 0 := hqm ▸ hpost q hq
      constructor
      · intro hmin
        exact absurd (isMinimumOf_unique hmin h0) hm0
      · rintro (hn | hlast)
        · exact absurd h0 hn
        · exfalso
          rcases List.eq_nil_or_concat post with hnil | ⟨init, l, hl⟩
          · exact hne hnil
          · rw [List.concat_eq_append] at hl
            have hsplit : ps = (pre ++ z :: init) ++ [l] := by
              rw [hps, hl]
              simp
            rw [hsplit, valuesOf_snoc, List.getLast?_concat] at hlast
            have hlmem : l ∈ post := by
              rw [hl]
              exact List.mem_append_right _ (List.mem_singleton.2 rfl)
            exact hpost l hlmem (Option.some.inj hlast)

theorem minState_of_ne_zero {m : ExtRat} {d : String} {ps : List (String × ExtRat)}
    (h : MinState m d ps) (hn0 : ¬ IsMinimumOf 0 (valuesOf ps)) :
    IsMinimumOf m (valuesOf ps) ∧ firstOf ps m = some d := by
  rcases h with ⟨-, hmin, hd⟩ | ⟨h0, -⟩
  · exact ⟨hmin, hd⟩
  · exact absurd h0 hn0

theorem minState_of_sign {m : ExtRat} {d : String} {ps : List (String × ExtRat)}
    (h : MinState m d ps)
    (hs : (∀ v ∈ valuesOf ps, v ≠ 0) ∨ (∀ v ∈ valuesOf ps, v ≤ 0)) :
    IsMinimumOf m (valuesOf ps) := by
  by_cases h0 : IsMinimumOf 0 (valuesOf ps)
  · rcases hs with hs | hs
    · exact absurd rfl (hs 0 h0.1)
    · have hm := minState_mem h
      have : m = 0 := le_antisymm (hs m hm) (h0.2 m hm)
      exact this ▸ h0
  · exact (minState_of_ne_zero h h0).1

theorem minState_of_fresh {m : ExtRat} {d : String} {ps : List (String × ExtRat)}
    (h : MinState m d ps)
    (hfresh : ∀ pre post : List ExtRat, valuesOf ps = pre ++ 0 :: post →
      ∀ x ∈ post, x ∉ pre ∧ x ≠ 0) :
    firstOf ps m = some d := by
  rcases h with ⟨-, -, hd⟩ | ⟨-, pre, z, post, hps, hz, hpost, hcase⟩
  · exact hd
  · refine firstOf_of_fresh ⟨pre, z, post, hps, hz, hpost, ?_⟩ hfresh
    rcases hcase with hc | ⟨hne, hpm, hpd⟩
    · exact Or.inl hc
    · exact Or.inr ⟨hne, hpm.1, hpd⟩

/-! ## From numbers to floats -/

theorem Float.exists_num {x : Float} (h : x ≠ Float.nan) : ∃ n, x = Float.num n := by
  cases x with
  | nan => exact absurd rfl h
  | num n => exact ⟨n, rfl⟩

theorem Float.lt_num {a b : ExtRat} : (Float.num a < Float.num b) ↔ a < b := Iff.rfl

theorem Float.le_num {a b : ExtRat} : (Float.num a ≤ Float.num b) ↔ a ≤ b := Iff.rfl

theorem Float.eq_num_zero {a : ExtRat} : Float.eq (Float.num a) Float.zero ↔ a = 0 := Iff.rfl

theorem Float.not_le_nan (x : Float) : ¬ (Float.nan ≤ x) := fun h => h

theorem Float.num_injective : Function.Injective Float.num := fun _ _ h => Float.num.inj h

theorem isMaximumOf_num {x : ExtRat} {ns : List ExtRat} :
    IsMaximumOf (Float.num x) (ns.map Float.num) ↔ IsMaximumOf x ns := by
  unfold IsMaximumOf
  rw [List.mem_map_of_injective Float.num_injective]
  constructor
  · rintro ⟨h1, h2⟩
    exact ⟨h1, fun v hv => Float.le_num.1 (h2 _ (List.mem_map_of_mem _ hv))⟩
  · rintro ⟨h1, h2⟩
    refine ⟨h1, ?_⟩
    intro v hv
    obtain ⟨n, hn, rfl⟩ := List.mem_map.1 hv
    exact Float.le_num.2 (h2 n hn)

theorem isMinimumOf_num {x : ExtRat} {ns : List ExtRat} :
    IsMinimumOf (Float.num x) (ns.map Float.num) ↔ IsMinimumOf x ns := by
  unfold IsMinimumOf
  rw [List.mem_map_of_injective Float.num_injective]
  constructor
  · rintro ⟨h1, h2⟩
    exact ⟨h1, fun v hv => Float.le_num.1 (h2 _ (List.mem_map_of_mem _ hv))⟩
  · rintro ⟨h1, h2⟩
    refine ⟨h1, ?_⟩
    intro v hv
    obtain ⟨n, hn, rfl⟩ := List.mem_map.1 hv
    exact Float.le_num.2 (h2 n hn)

theorem not_isMaximumOf_of_nan {x : Float} {vs : List Float} (h : Float.nan ∈ vs) :
    ¬ IsMaximumOf x vs := fun hmax => Float.not_le_nan x (hmax.2 _ h)

theorem not_isMinimumOf_of_nan {x : Float} {vs : List Float} (h : Float.nan ∈ vs) :
    ¬ IsMinimumOf x vs := by
  intro hmin
  have := hmin.2 _ h
  cases x with
  | nan => exact this
  | num n => exact this

theorem getLast?_map_num {ns : List ExtRat} :
    (ns.map Float.num).getLast? = some Float.zero ↔ ns.getLast? = some 0 := by
  rw [List.getLast?_map]
  cases ns.getLast? with
  | none => simp
  | some n =>
    simp only [Option.map_some', Option.some.injEq]
    exact ⟨fun h => Float.num.inj h, fun h => congrArg Float.num h⟩

theorem linked_nil : Linked [] [] := rfl

theorem linked_snoc {os : List (String × Valute)} {ps : List (String × ExtRat)}
    (h : Linked os ps) (o : String × Valute) (x : ExtRat) (hx : o.2.Value = Float.num x) :
    Linked (os ++ [o]) (ps ++ [(o.1, x)]) := by
  unfold Linked at *
  simp only [List.map_append, List.map_cons, List.map_nil, h, hx]

theorem linked_values {os : List (String × Valute)} {ps : List (String × ExtRat)}
    (h : Linked os ps) : (os.map fun o => o.2.Value) = (valuesOf ps).map Float.num := by
  unfold Linked at h
  have := congrArg (List.map Prod.snd) h
  simpa [valuesOf, List.map_map, Function.comp] using this

theorem firstDateOf_linked {os : List (String × Valute)} {ps : List (String × ExtRat)}
    (h : Linked os ps) (x : ExtRat) : firstDateOf os (Float.num x) = firstOf ps x := by
  induction os generalizing ps with
  | nil =>
    cases ps with
    | nil => rfl
    | cons p rest => simp [Linked] at h
  | cons o rest ih =>
    cases ps with
    | nil => simp [Linked] at h
    | cons p ps =>
      have h' : (o.1, o.2.Value) = (p.1, Float.num p.2) ∧ Linked rest ps := by
        unfold Linked at h ⊢
        simpa using h
      obtain ⟨hhead, htail⟩ := h'
      have hd : o.1 = p.1 := congrArg Prod.fst hhead
      have hv : o.2.Value = Float.num p.2 := congrArg Prod.snd hhead
      have ih' := ih htail
      unfold firstDateOf firstOf at *
      rw [List.find?_cons, List.find?_cons, hv]
      by_cases hp : p.2 = x
      · have h1 : Float.eq (Float.num p.2) (Float.num x) := hp
        rw [decide_eq_true h1, decide_eq_true hp]
        simp only [Option.map_some', hd]
      · have h1 : ¬ Float.eq (Float.num p.2) (Float.num x) := hp
        rw [decide_eq_false h1, decide_eq_false hp]
        exact ih'

theorem fresh_of_map_num {ns : List ExtRat} (h : FreshAfterZero (ns.map Float.num)) :
    ∀ pre post : List ExtRat, ns = pre ++ 0 :: post → ∀ x ∈ post, x ∉ pre ∧ x ≠ 0 := by
  intro pre post hns x hx
  have hsplit : ns.map Float.num = pre.map Float.num ++ Float.zero :: post.map Float.num := by
    rw [hns]
    simp [Float.zero]
  obtain ⟨h1, h2⟩ := h _ _ hsplit (Float.num x) (List.mem_map_of_mem _ hx)
  refine ⟨fun hmem => h1 (List.mem_map_of_mem _ hmem), ?_⟩
  intro hx0
  exact h2 (by rw [hx0]; rfl)

/-! ## The extremes of the entry of one code -/

theorem updateInfo_MaxValue_num (e : CurrencyInfo) (v : Valute) (d : String)
    (m x : ExtRat) (he : e.MaxValue.Value = Float.num m) (hv : v.Value = Float.num x) :
    (updateInfo e v d).MaxValue =
      ⟨Float.num (maxNext m e.MaxValue.Date (d, x)).1,
        (maxNext m e.MaxValue.Date (d, x)).2⟩ := by
  rw [updateInfo_MaxValue, he, hv]
  unfold maxNext
  have hcond : (Float.num x > Float.num m ∨ Float.eq (Float.num m) Float.zero) ↔
      (x > m ∨ m = 0) := Iff.rfl
  by_cases hc : x > m ∨ m = 0
  · rw [if_pos (hcond.2 hc), if_pos hc]
  · rw [if_neg (fun h => hc (hcond.1 h)), if_neg hc]
    cases hmv : e.MaxValue with
    | mk val date =>
      rw [hmv] at he
      simp only at he
      simp [he]

theorem updateInfo_MinValue_num (e : CurrencyInfo) (v : Valute) (d : String)
    (m x : ExtRat) (he : e.MinValue.Value = Float.num m) (hv : v.Value = Float.num x) :
    (updateInfo e v d).MinValue =
      ⟨Float.num (minNext m e.MinValue.Date (d, x)).1,
        (minNext m e.MinValue.Date (d, x)).2⟩ := by
  rw [updateInfo_MinValue, he, hv]
  unfold minNext
  have hcond : (Float.num x < Float.num m ∨ Float.eq (Float.num m) Float.zero) ↔
      (x < m ∨ m = 0) := Iff.rfl
  by_cases hc : x < m ∨ m = 0
  · rw [if_pos (hcond.2 hc), if_pos hc]
  · rw [if_neg (fun h => hc (hcond.1 h)), if_neg hc]
    cases hmv : e.MinValue with
    | mk val date =>
      rw [hmv] at he
      simp only at he
      simp [he]

/-- After every non-empty sequence of observations of a code that holds no NaN,
the stored extremes and their dates are in the states `MaxState` and
`MinState` of the dated numbers observed. -/
theorem entry_states (os : List (String × Valute)) (hne : os ≠ []) :
    ∃ e, entryAfter none os = some e ∧
      ((∀ o ∈ os, o.2.Value ≠ Float.nan) →
        ∃ (ps : List (String × ExtRat)) (m μ : ExtRat), Linked os ps ∧
          e.MaxValue.Value = Float.num m ∧ MaxState m e.MaxValue.Date ps ∧
          e.MinValue.Value = Float.num μ ∧ MinState μ e.MinValue.Date ps) := by
  refine entryAfter_induction
    (fun e os => (∀ o ∈ os, o.2.Value ≠ Float.nan) →
        ∃ (ps : List (String × ExtRat)) (m μ : ExtRat), Linked os ps ∧
          e.MaxValue.Value = Float.num m ∧ MaxState m e.MaxValue.Date ps ∧
          e.MinValue.Value = Float.num μ ∧ MinState μ e.MinValue.Date ps) ?_ ?_ os hne
  · intro o hnan
    obtain ⟨x, hx⟩ := Float.exists_num (hnan o (List.mem_singleton.2 rfl))
    have hmax := updateInfo_MaxValue_num (CurrencyInfo.fresh o.2.CharCode o.2.Name) o.2 o.1
      0 x rfl hx
    have hmin := updateInfo_MinValue_num (CurrencyInfo.fresh o.2.CharCode o.2.Name) o.2 o.1
      0 x rfl hx
    refine ⟨[(o.1, x)], (maxNext 0 "" (o.1, x)).1, (minNext 0 "" (o.1, x)).1,
      linked_snoc linked_nil o x hx, ?_, ?_, ?_, ?_⟩
    · rw [hmax]
      rfl
    · rw [hmax]
      exact maxState_first (o.1, x)
    · rw [hmin]
      rfl
    · rw [hmin]
      exact minState_first (o.1, x)
  · intro e os o _ ih hnan
    obtain ⟨ps, m, μ, hl, hm, hms, hμ, hμs⟩ :=
      ih fun o' ho' => hnan o' (List.mem_append_left _ ho')
    obtain ⟨x, hx⟩ :=
      Float.exists_num (hnan o (List.mem_append_right _ (List.mem_singleton.2 rfl)))
    have hmax := updateInfo_MaxValue_num e o.2 o.1 m x hm hx
    have hmin := updateInfo_MinValue_num e o.2 o.1 μ x hμ hx
    refine ⟨ps ++ [(o.1, x)], (maxNext m e.MaxValue.Date (o.1, x)).1,
      (minNext μ e.MinValue.Date (o.1, x)).1, linked_snoc hl o x hx, ?_, ?_, ?_, ?_⟩
    · rw [hmax]
    · rw [hmax]
      exact maxState_step m _ ps (o.1, x) hms
    · rw [hmin]
    · rw [hmin]
      exact minState_step μ _ ps (o.1, x) hμs

/-- After every non-empty sequence of observations of a code, NaN or not, each
stored extreme is one of the observed values. -/
theorem entry_extremes_mem (os : List (String × Valute)) (hne : os ≠ []) :
    ∃ e, entryAfter none os = some e ∧
      e.MaxValue.Value ∈ (os.map fun o => o.2.Value) ∧
      e.MinValue.Value ∈ (os.map fun o => o.2.Value) := by
  refine entryAfter_induction
    (fun e os => e.MaxValue.Value ∈ (os.map fun o => o.2.Value) ∧
      e.MinValue.Value ∈ (os.map fun o => o.2.Value)) ?_ ?_ os hne
  · intro o
    rw [updateInfo_MaxValue, updateInfo_MinValue]
    have h0 : Float.eq Float.zero Float.zero := rfl
    simp [CurrencyInfo.fresh, h0]
  · intro e os o _ ih
    rw [updateInfo_MaxValue, updateInfo_MinValue]
    simp only [List.map_append, List.map_cons, List.map_nil, List.mem_append,
      List.mem_singleton]
    constructor
    · split_ifs
      · exact Or.inr rfl
      · exact Or.inl ih.1
    · split_ifs
      · exact Or.inr rfl
      · exact Or.inl ih.2

/-! ## Rounding to float32 -/

theorem intLog_eq (a : ℚ) (e : ℤ) (h1 : (2 : ℚ) ^ e ≤ a) (h2 : a < (2 : ℚ) ^ (e + 1)) :
    Int.log 2 a = e := by
  have ha : 0 < a := lt_of_lt_of_le (by positivity) h1
  apply le_antisymm
  · have := (Int.lt_zpow_iff_log_lt (b := 2) (by norm_num) ha (x := e + 1)).1
      (by exact_mod_cast h2)
    omega
  · exact (Int.zpow_le_iff_le_log (b := 2) (by norm_num) ha).1 (by exact_mod_cast h1)

theorem roundHalfEven_of_lt (r : ℚ) (m : ℤ) (h1 : (m : ℚ) - 1 / 2 < r)
    (h2 : r < (m : ℚ) + 1 / 2) : roundHalfEven r = m := by
  unfold roundHalfEven
  by_cases hf : ⌊r⌋ = m
  · have hle : r - (m : ℚ) < 1 / 2 := by linarith
    rw [hf, if_pos hle]
  · have hfl := Int.floor_le r
    have hfl2 := Int.lt_floor_add_one r
    have hm1 : ⌊r⌋ = m - 1 := by
      have h5 : ⌊r⌋ < m + 1 := by
        have : (⌊r⌋ : ℚ) < ((m + 1 : ℤ) : ℚ) := by push_cast; linarith
        exact_mod_cast this
      have h6 : m - 2 < ⌊r⌋ := by
        have : ((m - 2 : ℤ) : ℚ) < (⌊r⌋ : ℚ) := by push_cast; linarith
        exact_mod_cast this
      omega
    have hgt : 1 / 2 < r - ((m - 1 : ℤ) : ℚ) := by push_cast; linarith
    rw [hm1, if_neg (not_lt.2 (le_of_lt hgt)), if_pos hgt]
    ring

theorem roundHalfEven_tie_even (m : ℤ) (h : m % 2 = 0) :
    roundHalfEven ((m : ℚ) + 1 / 2) = m := by
  have hf : ⌊(m : ℚ) + 1 / 2⌋ = m := by
    rw [Int.floor_eq_iff]
    constructor <;> linarith
  unfold roundHalfEven
  rw [hf]
  have hfrac : (m : ℚ) + 1 / 2 - (m : ℚ) = 1 / 2 := by ring
  rw [hfrac, if_neg (lt_irrefl _), if_neg (lt_irrefl _), if_pos h]

theorem floor_le_roundHalfEven (r : ℚ) : ⌊r⌋ ≤ roundHalfEven r := by
  unfold roundHalfEven
  split_ifs <;> omega

/-- Evaluation of `round32` at a positive rational from the binade of the
argument and the rounded significand. -/
theorem round32_eval (q : ℚ) (e m : ℤ) (h1 : (2 : ℚ) ^ e ≤ q) (h2 : q < (2 : ℚ) ^ (e + 1))
    (hm : roundHalfEven (q / (2 : ℚ) ^ max (e - 23) (-149)) = m)
    (hov : (m : ℚ) * (2 : ℚ) ^ max (e - 23) (-149) < (2 : ℚ) ^ (128 : ℕ)) :
    round32 q = .fin ((m : ℚ) * (2 : ℚ) ^ max (e - 23) (-149)) := by
  have hq : 0 < q := lt_of_lt_of_le (by positivity) h1
  have habs : |q| = q := abs_of_pos hq
  unfold round32 ulpExp
  simp only [habs, intLog_eq q e h1 h2, hm]
  rw [if_neg (not_le.2 hov), if_neg (not_lt.2 (le_of_lt hq))]

/-- A positive rational whose quotient by its unit in the last place is an
integer is a float32 value. -/
theorem exact32_eval (q : ℚ) (e m : ℤ) (h1 : (2 : ℚ) ^ e ≤ q) (h2 : q < (2 : ℚ) ^ (e + 1))
    (hs : q / (2 : ℚ) ^ max (e - 23) (-149) = (m : ℚ)) (he : e + 1 ≤ 128) : Exact32 q := by
  have hpow : (0 : ℚ) < (2 : ℚ) ^ max (e - 23) (-149) := by positivity
  have hq : (m : ℚ) * (2 : ℚ) ^ max (e - 23) (-149) = q := by
    rw [← hs]
    field_simp
  have hm : roundHalfEven (q / (2 : ℚ) ^ max (e - 23) (-149)) = m := by
    rw [hs]
    exact roundHalfEven_of_lt _ _ (by linarith) (by linarith)
  have hov : (m : ℚ) * (2 : ℚ) ^ max (e - 23) (-149) < (2 : ℚ) ^ (128 : ℕ) := by
    rw [hq]
    refine lt_of_lt_of_le h2 ?_
    have h128 : (2 : ℚ) ^ (128 : ℤ) = (2 : ℚ) ^ (128 : ℕ) := by norm_num
    rw [← h128]
    exact zpow_le_zpow_right₀ (by norm_num) he
  unfold Exact32
  rw [round32_eval q e m h1 h2 hm hov, hq]

theorem exact32_zero : Exact32 0 := by
  unfold Exact32 round32 roundHalfEven
  simp

theorem round32_ne_zero_of_one_le (q : ℚ) (hq : 1 ≤ q) : round32 q ≠ .fin 0 := by
  have hpos : 0 < q := lt_of_lt_of_le one_pos hq
  have habs : |q| = q := abs_of_pos hpos
  have hlog : 0 ≤ Int.log 2 q :=
    (Int.zpow_le_iff_le_log (b := 2) (by norm_num) hpos).1 (by simpa using hq)
  have hx : ulpExp q = Int.log 2 q - 23 := by
    unfold ulpExp
    exact max_eq_left (by omega)
  have hle : (2 : ℚ) ^ Int.log 2 q ≤ q := by
    have := Int.zpow_log_le_self (b := 2) (by norm_num) hpos
    exact_mod_cast this
  have hs : (1 : ℚ) ≤ q / (2 : ℚ) ^ (Int.log 2 q - 23) := by
    rw [le_div_iff₀ (by positivity)]
    have h23 : (2 : ℚ) ^ (Int.log 2 q - 23) ≤ (2 : ℚ) ^ Int.log 2 q :=
      zpow_le_zpow_right₀ (by norm_num) (by omega)
    linarith
  have hm : 1 ≤ roundHalfEven (q / (2 : ℚ) ^ (Int.log 2 q - 23)) := by
    refine le_trans ?_ (floor_le_roundHalfEven _)
    exact Int.le_floor.2 (by exact_mod_cast hs)
  have hr : 0 < (roundHalfEven (q / (2 : ℚ) ^ (Int.log 2 q - 23)) : ℚ)
      * (2 : ℚ) ^ (Int.log 2 q - 23) := by
    apply mul_pos
    · exact_mod_cast lt_of_lt_of_le one_pos hm
    · positivity
  unfold round32
  simp only [habs, hx]
  split_ifs with h3 h4 h5
  · exact fun h => ExtRat.noConfusion h
  · exact fun h => ExtRat.noConfusion h
  · exact absurd h5 (not_lt.2 (le_of_lt hpos))
  · intro h
    injection h with h
    exact absurd h (ne_of_gt hr)

theorem exact32_1 : Exact32 1 :=
  exact32_eval 1 0 8388608 (by norm_num) (by norm_num) (by norm_num) (by norm_num)

theorem exact32_2 : Exact32 2 :=
  exact32_eval 2 1 8388608 (by norm_num) (by norm_num) (by norm_num) (by norm_num)

theorem exact32_90 : Exact32 90 :=
  exact32_eval 90 6 11796480 (by norm_num) (by norm_num) (by norm_num) (by norm_num)

theorem exact32_95 : Exact32 95 :=
  exact32_eval 95 6 12451840 (by norm_num) (by norm_num) (by norm_num) (by norm_num)

theorem exact32_185 : Exact32 185 :=
  exact32_eval 185 7 12124160 (by norm_num) (by norm_num) (by norm_num) (by norm_num)

theorem exact32_90_5 : Exact32 (181 / 2) :=
  exact32_eval (181 / 2) 6 11862016 (by norm_num) (by norm_num) (by norm_num) (by norm_num)

theorem exact32_2pow24 : Exact32 16777216 :=
  exact32_eval 16777216 24 8388608 (by norm_num) (by norm_num) (by norm_num) (by norm_num)

theorem exact32_2pow23 : Exact32 8388608 :=
  exact32_eval 8388608 23 8388608 (by norm_num) (by norm_num) (by norm_num) (by norm_num)

theorem exact32_65_4321 : Exact32 (2144079 / 32768) :=
  exact32_eval (2144079 / 32768) 6 8576316 (by norm_num) (by norm_num) (by norm_num)
    (by norm_num)

theorem round32_65_4321 : round32 (654321 / 10000) = .fin (2144079 / 32768) := by
  rw [round32_eval (654321 / 10000) 6 8576316 (by norm_num) (by norm_num)
    (roundHalfEven_of_lt _ _ (by norm_num) (by norm_num)) (by norm_num)]
  norm_num

theorem round32_2pow24_add_1 : round32 16777217 = .fin 16777216 := by
  have hs : (16777217 : ℚ) / 2 ^ max ((24 : ℤ) - 23) (-149) = ((8388608 : ℤ) : ℚ) + 1 / 2 := by
    norm_num
  rw [round32_eval 16777217 24 8388608 (by norm_num) (by norm_num)
    (by rw [hs]; exact roundHalfEven_tie_even _ (by decide)) (by norm_num)]
  norm_num

/-! ## Counter and running sum -/

theorem sum32_snoc (vs : List Float) (v : Float) :
    sum32 (vs ++ [v]) = Float.add (sum32 vs) v := by
  simp [sum32, List.foldl_append]

theorem entry_count_total (os : List (String × Valute)) (hne : os ≠ []) :
    ∃ e, entryAfter none os = some e ∧
      e.Count = (os.length : Int) ∧ e.TotalValue = sum32 (os.map fun o => o.2.Value) := by
  refine entryAfter_induction
    (fun e os => e.Count = (os.length : Int) ∧
      e.TotalValue = sum32 (os.map fun o => o.2.Value)) ?_ ?_ os hne
  · intro o
    rw [updateInfo_Count, updateInfo_TotalValue]
    exact ⟨by simp [CurrencyInfo.fresh], rfl⟩
  · intro e os o _ h
    rw [updateInfo_Count, updateInfo_TotalValue, h.1, h.2]
    refine ⟨by simp, ?_⟩
    rw [List.map_append, List.map_cons, List.map_nil, sum32_snoc]

theorem observations_length_of_once (days : List (String × List Valute)) (code : String)
    (h : ∀ d ∈ days, (d.2.filter fun v => v.CharCode = code).length ≤ 1) :
    (observations days code).length = daysAppeared days code := by
  induction days with
  | nil => rfl
  | cons d rest ih =>
    obtain ⟨dateStr, valutes⟩ := d
    have hd := h (dateStr, valutes) (List.mem_cons_self _ _)
    have hrest := ih fun d hd => h d (List.mem_cons_of_mem _ hd)
    simp only [observations, List.length_append, List.length_map, hrest]
    unfold daysAppeared
    by_cases hany : (valutes.any fun v => decide (v.CharCode = code)) = true
    · have hpos : 0 < (valutes.filter fun v => v.CharCode = code).length := by
        rw [List.length_pos]
        obtain ⟨v, hv, hc⟩ := List.any_eq_true.1 hany
        exact List.ne_nil_of_mem (List.mem_filter.2 ⟨hv, hc⟩)
      simp only [List.filter_cons, hany, if_true, List.length_cons]
      dsimp only at hd
      omega
    · have hzero : (valutes.filter fun v => v.CharCode = code) = [] := by
        rw [List.filter_eq_nil_iff]
        intro v hv hc
        exact hany (List.any_eq_true.2 ⟨v, hv, hc⟩)
      simp [List.filter_cons, hany, hzero]

theorem observedValues_length (days : List (String × List Valute)) (code : String) :
    (observedValues days code).length = (observations days code).length := by
  simp [observedValues]

theorem observations_append (xs ys : List (String × List Valute)) (code : String) :
    observations (xs ++ ys) code = observations xs code ++ observations ys code := by
  induction xs with
  | nil => rfl
  | cons d rest ih =>
    obtain ⟨dateStr, valutes⟩ := d
    have hstep : observations ((dateStr, valutes) :: (rest ++ ys)) code =
        ((valutes.filter fun v => v.CharCode = code).map fun v => (dateStr, v))
          ++ observations (rest ++ ys) code := rfl
    rw [List.cons_append, hstep, ih, ← List.append_assoc]
    rfl

theorem observedValues_take_subset (days : List (String × List Valute)) (k : Nat)
    (code : String) {x : Float} (h : x ∈ observedValues (days.take k) code) :
    x ∈ observedValues days code := by
  have hsplit : observations days code =
      observations (days.take k) code ++ observations (days.drop k) code := by
    rw [← observations_append, List.take_append_drop]
  unfold observedValues at *
  rw [hsplit, List.map_append]
  exact List.mem_append_left _ h

theorem observedValues_ne_nil {days : List (String × List Valute)} {code : String}
    (h : observedValues days code ≠ []) : observations days code ≠ [] := by
  intro h0
  apply h
  simp [observedValues, h0]

theorem aggregate_nil_get (days : List (String × List Valute)) (code : String) :
    (aggregate [] days).get code = entryAfter none (observations days code) :=
  aggregate_get days [] code

/-- The entry of a code whose observations hold no NaN, with the dated numbers
observed and the states of its extremes. -/
theorem entry_of_no_nan (days : List (String × List Valute)) (code : String)
    (hne : observedValues days code ≠ []) (hnan : Float.nan ∉ observedValues days code) :
    ∃ (e : CurrencyInfo) (ps : List (String × ExtRat)) (m μ : ExtRat),
      (aggregate [] days).get code = some e ∧ Linked (observations days code) ps ∧
      observedValues days code = (valuesOf ps).map Float.num ∧
      e.MaxValue.Value = Float.num m ∧ MaxState m e.MaxValue.Date ps ∧
      e.MinValue.Value = Float.num μ ∧ MinState μ e.MinValue.Date ps := by
  obtain ⟨e, he, h⟩ := entry_states (observations days code) (observedValues_ne_nil hne)
  have hnan' : ∀ o ∈ observations days code, o.2.Value ≠ Float.nan := by
    intro o ho hv
    apply hnan
    unfold observedValues
    exact List.mem_map.2 ⟨o, ho, hv⟩
  obtain ⟨ps, m, μ, hl, hm, hms, hμ, hμs⟩ := h hnan'
  refine ⟨e, ps, m, μ, ?_, hl, linked_values hl, hm, hms, hμ, hμs⟩
  rw [aggregate_nil_get]
  exact he

theorem max_nonzero (days : List (String × List Valute)) (code : String)
    (hne : observedValues days code ≠ []) :
    ∃ e, (aggregate [] days).get code = some e ∧
      ((Float.nan ∉ observedValues days code ∧
          ∀ v ∈ observedValues days code, v ≠ Float.zero) →
        IsMaximumOf e.MaxValue.Value (observedValues days code)) := by
  by_cases hnan : Float.nan ∈ observedValues days code
  · obtain ⟨e, he, -⟩ := entry_extremes_mem (observations days code) (observedValues_ne_nil hne)
    exact ⟨e, by rw [aggregate_nil_get]; exact he, fun h => absurd hnan h.1⟩
  · obtain ⟨e, ps, m, μ, he, -, hvals, hm, hms, -, -⟩ := entry_of_no_nan days code hne hnan
    refine ⟨e, he, ?_⟩
    intro hs
    rw [hm, hvals, isMaximumOf_num]
    apply maxState_of_sign hms
    left
    intro v hv hv0
    refine hs.2 (Float.num v) ?_ (by rw [hv0]; rfl)
    rw [hvals]
    exact List.mem_map_of_mem _ hv

theorem min_nonzero (days : List (String × List Valute)) (code : String)
    (hne : observedValues days code ≠ []) :
    ∃ e, (aggregate [] days).get code = some e ∧
      ((Float.nan ∉ observedValues days code ∧
          ∀ v ∈ observedValues days code, v ≠ Float.zero) →
        IsMinimumOf e.MinValue.Value (observedValues days code)) := by
  by_cases hnan : Float.nan ∈ observedValues days code
  · obtain ⟨e, he, -⟩ := entry_extremes_mem (observations days code) (observedValues_ne_nil hne)
    exact ⟨e, by rw [aggregate_nil_get]; exact he, fun h => absurd hnan h.1⟩
  · obtain ⟨e, ps, m, μ, he, -, hvals, -, -, hμ, hμs⟩ := entry_of_no_nan days code hne hnan
    refine ⟨e, he, ?_⟩
    intro hs
    rw [hμ, hvals, isMinimumOf_num]
    apply minState_of_sign hμs
    left
    intro v hv hv0
    refine hs.2 (Float.num v) ?_ (by rw [hv0]; rfl)
    rw [hvals]
    exact List.mem_map_of_mem _ hv

/-! ## Maximum and minimum -/

/-- C1, as stated, fails: for the US dollar observed at 0 and then at -1 the
loop stores -1 as `MaxValue.Value`, while the maximum of the observed values
is 0 (the stored 0 is taken for the sentinel by the second observation). -/
theorem max_value_counterexample :
    observedValues [("04/11/2026", [usd 0]), ("03/11/2026", [usd (-1)])] "USD"
      = [Float.ofRat 0, Float.ofRat (-1)] ∧
    ((aggregate [] [("04/11/2026", [usd 0]), ("03/11/2026", [usd (-1)])]).get "USD").map
      (fun e => e.MaxValue.Value) = some (Float.ofRat (-1)) ∧
    ¬ IsMaximumOf (Float.ofRat (-1)) [Float.ofRat 0, Float.ofRat (-1)] ∧
    IsMaximumOf (Float.ofRat 0) [Float.ofRat 0, Float.ofRat (-1)] := by
  refine ⟨by decide, by decide, by decide, by decide⟩

/-- C1, amended: after a non-empty sequence of observations of a code,
`MaxValue.Value` is the maximum of the observed values exactly when no
observed value is NaN and that maximum is not zero or the last observed value
is zero; in particular it is the maximum whenever no observed value is NaN or
zero, and whenever every observed value is `>= 0`. -/
theorem max_value_is_maximum_iff (days : List (String × List Valute)) (code : String)
    (hne : observedValues days code ≠ []) :
    ∃ e, (aggregate [] days).get code = some e ∧
      (IsMaximumOf e.MaxValue.Value (observedValues days code) ↔
        (Float.nan ∉ observedValues days code ∧
          (¬ IsMaximumOf Float.zero (observedValues days code) ∨
            (observedValues days code).getLast? = some Float.zero))) ∧
      (((Float.nan ∉ observedValues days code ∧
            ∀ v ∈ observedValues days code, v ≠ Float.zero) ∨
          (∀ v ∈ observedValues days code, Float.zero ≤ v)) →
        IsMaximumOf e.MaxValue.Value (observedValues days code)) := by
  by_cases hnan : Float.nan ∈ observedValues days code
  · obtain ⟨e, he, -⟩ := entry_extremes_mem (observations days code) (observedValues_ne_nil hne)
    refine ⟨e, by rw [aggregate_nil_get]; exact he, ?_, ?_⟩
    · exact ⟨fun h => absurd h (not_isMaximumOf_of_nan hnan), fun h => absurd hnan h.1⟩
    · rintro (h | h)
      · exact absurd hnan h.1
      · exact absurd (h _ hnan) (fun hle => hle)
  · obtain ⟨e, ps, m, μ, he, -, hvals, hm, hms, -, -⟩ := entry_of_no_nan days code hne hnan
    refine ⟨e, he, ?_, ?_⟩
    · rw [hm, hvals]
      have h0 : Float.zero = Float.num 0 := rfl
      rw [h0, isMaximumOf_num, isMaximumOf_num, ← h0, getLast?_map_num, maxState_iff hms]
      constructor
      · intro h
        refine ⟨?_, h⟩
        intro hmem
        obtain ⟨n, -, hn⟩ := List.mem_map.1 hmem
        exact Float.noConfusion hn
      · exact fun h => h.2
    · intro hs
      rw [hm, hvals, isMaximumOf_num]
      apply maxState_of_sign hms
      rcases hs with hs | hs
      · left
        intro v hv hv0
        refine hs.2 (Float.num v) ?_ (by rw [hv0]; rfl)
        rw [hvals]
        exact List.mem_map_of_mem _ hv
      · right
        intro v hv
        have := hs (Float.num v) (by rw [hvals]; exact List.mem_map_of_mem _ hv)
        exact this

/-- C1 at the two-day scenario, 90 then 95: the stored maximum is 95, the
maximum of the observed values. -/
theorem max_value_is_maximum_iff_witness :
    observedValues twoDays "USD" ≠ [] ∧
    (∃ e, (aggregate [] twoDays).get "USD" = some e ∧
      (IsMaximumOf e.MaxValue.Value (observedValues twoDays "USD") ↔
        (Float.nan ∉ observedValues twoDays "USD" ∧
          (¬ IsMaximumOf Float.zero (observedValues twoDays "USD") ∨
            (observedValues twoDays "USD").getLast? = some Float.zero))) ∧
      (((Float.nan ∉ observedValues twoDays "USD" ∧
            ∀ v ∈ observedValues twoDays "USD", v ≠ Float.zero) ∨
          (∀ v ∈ observedValues twoDays "USD", Float.zero ≤ v)) →
        IsMaximumOf e.MaxValue.Value (observedValues twoDays "USD"))) ∧
    ((aggregate [] twoDays).get "USD").map (fun e => e.MaxValue.Value)
      = some (Float.ofRat 95) ∧
    IsMaximumOf (Float.ofRat 95) (observedValues twoDays "USD") :=
  ⟨by decide, max_value_is_maximum_iff twoDays "USD" (by decide), by decide, by decide⟩

/-- C2, as stated, fails: for the US dollar observed at 5, then 0, then 3 the
loop stores 3 as `MinValue.Value`, while the minimum of the observed values is
0 (the stored 0 is taken for the sentinel by the third observation). -/
theorem min_value_counterexample :
    observedValues
      [("04/11/2026", [usd 5]), ("03/11/2026", [usd 0]), ("02/11/2026", [usd 3])] "USD"
      = [Float.ofRat 5, Float.ofRat 0, Float.ofRat 3] ∧
    ((aggregate []
      [("04/11/2026", [usd 5]), ("03/11/2026", [usd 0]), ("02/11/2026", [usd 3])]).get
        "USD").map (fun e => e.MinValue.Value) = some (Float.ofRat 3) ∧
    ¬ IsMinimumOf (Float.ofRat 3) [Float.ofRat 5, Float.ofRat 0, Float.ofRat 3] ∧
    IsMinimumOf (Float.ofRat 0) [Float.ofRat 5, Float.ofRat 0, Float.ofRat 3] := by
  refine ⟨by decide, by decide, by decide, by decide⟩

/-- C2, amended: after a non-empty sequence of observations of a code,
`MinValue.Value` is the minimum of the observed values exactly when no
observed value is NaN and that minimum is not zero or the last observed value
is zero; in particular it is the minimum whenever no observed value is NaN or
zero, and whenever every observed value is `<= 0`. -/
theorem min_value_is_minimum_iff (days : List (String × List Valute)) (code : String)
    (hne : observedValues days code ≠ []) :
    ∃ e, (aggregate [] days).get code = some e ∧
      (IsMinimumOf e.MinValue.Value (observedValues days code) ↔
        (Float.nan ∉ observedValues days code ∧
          (¬ IsMinimumOf Float.zero (observedValues days code) ∨
            (observedValues days code).getLast? = some Float.zero))) ∧
      (((Float.nan ∉ observedValues days code ∧
            ∀ v ∈ observedValues days code, v ≠ Float.zero) ∨
          (∀ v ∈ observedValues days code, v ≤ Float.zero)) →
        IsMinimumOf e.MinValue.Value (observedValues days code)) := by
  by_cases hnan : Float.nan ∈ observedValues days code
  · obtain ⟨e, he, -⟩ := entry_extremes_mem (observations days code) (observedValues_ne_nil hne)
    refine ⟨e, by rw [aggregate_nil_get]; exact he, ?_, ?_⟩
    · exact ⟨fun h => absurd h (not_isMinimumOf_of_nan hnan), fun h => absurd hnan h.1⟩
    · rintro (h | h)
      · exact absurd hnan h.1
      · exact absurd (h _ hnan) (fun hle => hle)
  · obtain ⟨e, ps, m, μ, he, -, hvals, -, -, hμ, hμs⟩ := entry_of_no_nan days code hne hnan
    refine ⟨e, he, ?_, ?_⟩
    · rw [hμ, hvals]
      have h0 : Float.zero = Float.num 0 := rfl
      rw [h0, isMinimumOf_num, isMinimumOf_num, ← h0, getLast?_map_num, minState_iff hμs]
      constructor
      · intro h
        refine ⟨?_, h⟩
        intro hmem
        obtain ⟨n, -, hn⟩ := List.mem_map.1 hmem
        exact Float.noConfusion hn
      · exact fun h => h.2
    · intro hs
      rw [hμ, hvals, isMinimumOf_num]
      apply minState_of_sign hμs
      rcases hs with hs | hs
      · left
        intro v hv hv0
        refine hs.2 (Float.num v) ?_ (by rw [hv0]; rfl)
        rw [hvals]
        exact List.mem_map_of_mem _ hv
      · right
        intro v hv
        have := hs (Float.num v) (by rw [hvals]; exact List.mem_map_of_mem _ hv)
        exact this

/-- C2 at the euro of the three-day scenario, 100 then 101: the stored minimum
is 100, the minimum of the observed values. -/
theorem min_value_is_minimum_iff_witness :
    observedValues threeDays "EUR" ≠ [] ∧
    (∃ e, (aggregate [] threeDays).get "EUR" = some e ∧
      (IsMinimumOf e.MinValue.Value (observedValues threeDays "EUR") ↔
        (Float.nan ∉ observedValues threeDays "EUR" ∧
          (¬ IsMinimumOf Float.zero (observedValues threeDays "EUR") ∨
            (observedValues threeDays "EUR").getLast? = some Float.zero))) ∧
      (((Float.nan ∉ observedValues threeDays "EUR" ∧
            ∀ v ∈ observedValues threeDays "EUR", v ≠ Float.zero) ∨
          (∀ v ∈ observedValues threeDays "EUR", v ≤ Float.zero)) →
        IsMinimumOf e.MinValue.Value (observedValues threeDays "EUR"))) ∧
    ((aggregate [] threeDays).get "EUR").map (fun e => e.MinValue.Value)
      = some (Float.ofRat 100) ∧
    IsMinimumOf (Float.ofRat 100) (observedValues threeDays "EUR") :=
  ⟨by decide, min_value_is_minimum_iff threeDays "EUR" (by decide), by decide, by decide⟩

/-- C10: after a non-empty sequence of observations of a code, a stored extreme
of zero occurs only if some observed value is zero; and when every observed
value is strictly positive, `MaxValue.Value` is the maximum and
`MinValue.Value` the minimum of the observed values, both are strictly
positive, and after every initial part of the days that holds an observation
both stored extremes are non-zero, so that the sentinel tests `== 0.0` are true
at the first observation only. -/
theorem positive_rates_extremes (days : List (String × List Valute)) (code : String)
    (hne : observedValues days code ≠ []) :
    ∃ e, (aggregate [] days).get code = some e ∧
      ((e.MaxValue.Value = Float.zero ∨ e.MinValue.Value = Float.zero) →
        Float.zero ∈ observedValues days code) ∧
      ((∀ v ∈ observedValues days code, Float.zero < v) →
        IsMaximumOf e.MaxValue.Value (observedValues days code) ∧
        IsMinimumOf e.MinValue.Value (observedValues days code) ∧
        Float.zero < e.MaxValue.Value ∧ Float.zero < e.MinValue.Value ∧
        ∀ k, observedValues (days.take k) code ≠ [] →
          ∃ e', (aggregate [] (days.take k)).get code = some e' ∧
            e'.MaxValue.Value ≠ Float.zero ∧ e'.MinValue.Value ≠ Float.zero) := by
  obtain ⟨e, he, hmaxmem, hminmem⟩ :=
    entry_extremes_mem (observations days code) (observedValues_ne_nil hne)
  have hget : (aggregate [] days).get code = some e := by
    rw [aggregate_nil_get]
    exact he
  refine ⟨e, hget, ?_, ?_⟩
  · rintro (h | h)
    · exact h ▸ hmaxmem
    · exact h ▸ hminmem
  · intro hpos
    have hnz : ∀ v ∈ observedValues days code, v ≠ Float.zero := by
      intro v hv hv0
      have := hpos v hv
      rw [hv0] at this
      exact lt_irrefl (0 : ExtRat) this
    have hnan : Float.nan ∉ observedValues days code := fun h => hpos _ h
    obtain ⟨e1, hget1, hmax⟩ := max_nonzero days code hne
    obtain ⟨e2, hget2, hmin⟩ := min_nonzero days code hne
    rw [hget] at hget1 hget2
    cases hget1
    cases hget2
    refine ⟨hmax ⟨hnan, hnz⟩, hmin ⟨hnan, hnz⟩, hpos _ hmaxmem, hpos _ hminmem, ?_⟩
    intro k hk
    obtain ⟨e', he', hmaxmem', hminmem'⟩ :=
      entry_extremes_mem (observations (days.take k) code) (observedValues_ne_nil hk)
    refine ⟨e', ?_, ?_, ?_⟩
    · rw [aggregate_nil_get]
      exact he'
    · exact hnz _ (observedValues_take_subset days k code hmaxmem')
    · exact hnz _ (observedValues_take_subset days k code hminmem')

/-- C10 at the US dollar of the three-day scenario, 90 then 95, all positive:
the stored extremes are 95 and 90. -/
theorem positive_rates_extremes_witness :
    (observedValues threeDays "USD" ≠ [] ∧
      ∀ v ∈ observedValues threeDays "USD", Float.zero < v) ∧
    (∃ e, (aggregate [] threeDays).get "USD" = some e ∧
      ((e.MaxValue.Value = Float.zero ∨ e.MinValue.Value = Float.zero) →
        Float.zero ∈ observedValues threeDays "USD") ∧
      ((∀ v ∈ observedValues threeDays "USD", Float.zero < v) →
        IsMaximumOf e.MaxValue.Value (observedValues threeDays "USD") ∧
        IsMinimumOf e.MinValue.Value (observedValues threeDays "USD") ∧
        Float.zero < e.MaxValue.Value ∧ Float.zero < e.MinValue.Value ∧
        ∀ k, observedValues (threeDays.take k) "USD" ≠ [] →
          ∃ e', (aggregate [] (threeDays.take k)).get "USD" = some e' ∧
            e'.MaxValue.Value ≠ Float.zero ∧ e'.MinValue.Value ≠ Float.zero)) ∧
    ((aggregate [] threeDays).get "USD").map (fun e => (e.MaxValue.Value, e.MinValue.Value))
      = some (Float.ofRat 95, Float.ofRat 90) :=
  ⟨⟨by decide, by decide⟩, positive_rates_extremes threeDays "USD" (by decide), by decide⟩

/-! ## The dates of the extremes -/

theorem linked_split {os : List (String × Valute)} {ps pre post : List (String × ExtRat)}
    {z : String × ExtRat} (h : Linked os ps) (hps : ps = pre ++ z :: post) :
    ∃ (opre : List (String × Valute)) (oz : String × Valute) (opost : List (String × Valute)),
      os = opre ++ oz :: opost ∧ Linked opre pre ∧ oz.1 = z.1 ∧ oz.2.Value = Float.num z.2 ∧
      Linked opost post := by
  unfold Linked at h
  rw [hps, List.map_append, List.map_cons] at h
  obtain ⟨opre, rest, hos, hpre, hrest⟩ := List.map_eq_append_iff.1 h
  obtain ⟨oz, opost, hr, hz, hpost⟩ := List.map_eq_cons_iff.1 hrest
  refine ⟨opre, oz, opost, by rw [hos, hr], hpre, ?_, ?_, hpost⟩
  · exact congrArg Prod.fst hz
  · exact congrArg Prod.snd hz

theorem split_state_lift {os : List (String × Valute)} {ps : List (String × ExtRat)}
    (hl : Linked os ps) (m : ExtRat) (d : String)
    (P : ExtRat → List ExtRat → Prop) (Q : Float → List Float → Prop)
    (hPQ : ∀ x ns, P x ns → Q (Float.num x) (ns.map Float.num))
    (h : ∃ (pre : List (String × ExtRat)) (z : String × ExtRat)
      (post : List (String × ExtRat)),
      ps = pre ++ z :: post ∧ z.2 = 0 ∧ (∀ p ∈ post, p.2 ≠ 0) ∧
      ((post = [] ∧ m = 0 ∧ d = z.1) ∨
        (post ≠ [] ∧ P m (valuesOf post) ∧ firstOf post m = some d))) :
    ∃ (pre : List (String × Valute)) (z : String × Valute) (post : List (String × Valute)),
      os = pre ++ z :: post ∧ z.2.Value = Float.zero ∧ (∀ o ∈ post, o.2.Value ≠ Float.zero) ∧
      ((post = [] ∧ Float.num m = Float.zero ∧ d = z.1) ∨
        (post ≠ [] ∧ Q (Float.num m) (post.map fun o => o.2.Value) ∧
          firstDateOf post (Float.num m) = some d)) := by
  obtain ⟨pre, z, post, hps, hz, hpost, hcase⟩ := h
  obtain ⟨opre, oz, opost, hos, -, hz1, hz2, hlpost⟩ := linked_split hl hps
  have hvals := linked_values hlpost
  refine ⟨opre, oz, opost, hos, by rw [hz2, hz]; rfl, ?_, ?_⟩
  · intro o ho h0
    have hmem : o.2.Value ∈ (valuesOf post).map Float.num := by
      rw [← hvals]
      exact List.mem_map.2 ⟨o, ho, rfl⟩
    obtain ⟨x, hx, hxo⟩ := List.mem_map.1 hmem
    obtain ⟨p, hp, hpx⟩ := mem_valuesOf.1 hx
    apply hpost p hp
    rw [hpx]
    apply Float.num_injective
    rw [hxo, h0]
    rfl
  · rcases hcase with ⟨hnil, hm, hd⟩ | ⟨hne, hP, hfirst⟩
    · left
      refine ⟨?_, by rw [hm]; rfl, by rw [hd, hz1]⟩
      subst hnil
      cases opost with
      | nil => rfl
      | cons o rest => simp [Linked] at hlpost
    · right
      refine ⟨?_, ?_, ?_⟩
      · intro hnil
        subst hnil
        cases post with
        | nil => exact hne rfl
        | cons p rest => simp [Linked] at hlpost
      · rw [hvals]
        exact hPQ _ _ hP
      · rw [firstDateOf_linked hlpost]
        exact hfirst

/-- C3, as stated, fails: for the US dollar observed at 0 on two days the loop
stores the date of the second day with the maximum 0 (and with the minimum 0),
while the earliest-processed observation with that value is the one of the
first day. -/
theorem extreme_date_counterexample :
    ((aggregate [] [("04/11/2026", [usd 0]), ("03/11/2026", [usd 0])]).get "USD").map
      (fun e => (e.MaxValue, e.MinValue))
      = some (⟨Float.ofRat 0, "03/11/2026"⟩, ⟨Float.ofRat 0, "03/11/2026"⟩) ∧
    firstDateOf
      (observations [("04/11/2026", [usd 0]), ("03/11/2026", [usd 0])] "USD") (Float.ofRat 0)
      = some "04/11/2026" := by
  refine ⟨by decide, by decide⟩

/-- C3, amended: an observation whose value equals a stored extreme that is not
zero leaves the stored value and date as they are.  After a non-empty sequence
of observations of a code none of which is NaN: if the maximum of the observed
values is not zero, `MaxValue.Value` is that maximum and `MaxValue.Date` is the
date of the earliest-processed observation with that value; if the maximum is
zero, then with `z` the last observation of value zero, `MaxValue` is zero dated
at `z` when nothing follows `z`, and else the maximum of the observations after
`z` with the date of the earliest of these that has it; so, if every value
observed after a value 0 is new (not 0, and not observed before that 0),
`MaxValue.Date` is the date of the earliest-processed observation whose value
equals `MaxValue.Value`.  The same holds for the minimum. -/
theorem extreme_dates_are_earliest (days : List (String × List Valute)) (code : String)
    (hne : observedValues days code ≠ []) (hnan : Float.nan ∉ observedValues days code) :
    (∃ e, (aggregate [] days).get code = some e ∧
      (¬ IsMaximumOf Float.zero (observedValues days code) →
        IsMaximumOf e.MaxValue.Value (observedValues days code) ∧
        firstDateOf (observations days code) e.MaxValue.Value = some e.MaxValue.Date) ∧
      (IsMaximumOf Float.zero (observedValues days code) →
        ∃ (pre : List (String × Valute)) (z : String × Valute) (post : List (String × Valute)),
          observations days code = pre ++ z :: post ∧ z.2.Value = Float.zero ∧
          (∀ o ∈ post, o.2.Value ≠ Float.zero) ∧
          ((post = [] ∧ e.MaxValue.Value = Float.zero ∧ e.MaxValue.Date = z.1) ∨
            (post ≠ [] ∧ IsMaximumOf e.MaxValue.Value (post.map fun o => o.2.Value) ∧
              firstDateOf post e.MaxValue.Value = some e.MaxValue.Date))) ∧
      (FreshAfterZero (observedValues days code) →
        firstDateOf (observations days code) e.MaxValue.Value = some e.MaxValue.Date) ∧
      (¬ IsMinimumOf Float.zero (observedValues days code) →
        IsMinimumOf e.MinValue.Value (observedValues days code) ∧
        firstDateOf (observations days code) e.MinValue.Value = some e.MinValue.Date) ∧
      (IsMinimumOf Float.zero (observedValues days code) →
        ∃ (pre : List (String × Valute)) (z : String × Valute) (post : List (String × Valute)),
          observations days code = pre ++ z :: post ∧ z.2.Value = Float.zero ∧
          (∀ o ∈ post, o.2.Value ≠ Float.zero) ∧
          ((post = [] ∧ e.MinValue.Value = Float.zero ∧ e.MinValue.Date = z.1) ∨
            (post ≠ [] ∧ IsMinimumOf e.MinValue.Value (post.map fun o => o.2.Value) ∧
              firstDateOf post e.MinValue.Value = some e.MinValue.Date))) ∧
      (FreshAfterZero (observedValues days code) →
        firstDateOf (observations days code) e.MinValue.Value = some e.MinValue.Date)) ∧
    (∀ (cur : CurrencyInfo) (valute : Valute) (dateStr : String),
      (Float.eq valute.Value cur.MaxValue.Value → ¬ Float.eq cur.MaxValue.Value Float.zero →
        (updateInfo cur valute dateStr).MaxValue = cur.MaxValue) ∧
      (Float.eq valute.Value cur.MinValue.Value → ¬ Float.eq cur.MinValue.Value Float.zero →
        (updateInfo cur valute dateStr).MinValue = cur.MinValue)) := by
  constructor
  · obtain ⟨e, ps, m, μ, he, hl, hvals, hm, hms, hμ, hμs⟩ := entry_of_no_nan days code hne hnan
    have h0 : Float.zero = Float.num 0 := rfl
    refine ⟨e, he, ?_, ?_, ?_, ?_, ?_, ?_⟩
    · intro hn0
      rw [hvals, h0, isMaximumOf_num] at hn0
      rw [hm, hvals, isMaximumOf_num, firstDateOf_linked hl]
      exact maxState_of_ne_zero hms hn0
    · intro hz0
      rw [hvals, h0, isMaximumOf_num] at hz0
      rw [hm]
      rcases hms with ⟨hn0, -⟩ | ⟨-, hsplit⟩
      · exact absurd hz0 hn0
      · exact split_state_lift hl m e.MaxValue.Date IsMaximumOf IsMaximumOf
          (fun x ns h => isMaximumOf_num.2 h) hsplit
    · intro hfresh
      rw [hvals] at hfresh
      rw [hm, firstDateOf_linked hl]
      exact maxState_of_fresh hms (fresh_of_map_num hfresh)
    · intro hn0
      rw [hvals, h0, isMinimumOf_num] at hn0
      rw [hμ, hvals, isMinimumOf_num, firstDateOf_linked hl]
      exact minState_of_ne_zero hμs hn0
    · intro hz0
      rw [hvals, h0, isMinimumOf_num] at hz0
      rw [hμ]
      rcases hμs with ⟨hn0, -⟩ | ⟨-, hsplit⟩
      · exact absurd hz0 hn0
      · exact split_state_lift hl μ e.MinValue.Date IsMinimumOf IsMinimumOf
          (fun x ns h => isMinimumOf_num.2 h) hsplit
    · intro hfresh
      rw [hvals] at hfresh
      rw [hμ, firstDateOf_linked hl]
      exact minState_of_fresh hμs (fresh_of_map_num hfresh)
  · intro cur valute dateStr
    constructor
    · intro heq hn0
      rw [updateInfo_MaxValue]
      have hgt : ¬ valute.Value > cur.MaxValue.Value := by
        intro hgt
        cases hv : valute.Value with
        | nan => rw [hv] at heq; exact heq
        | num a =>
          cases hc : cur.MaxValue.Value with
          | nan => rw [hv, hc] at heq; exact heq
          | num b =>
            rw [hv, hc] at heq hgt
            have h1 : a = b := heq
            have h2 : b < a := hgt
            exact lt_irrefl _ (h1 ▸ h2)
      rw [if_neg (fun h => h.elim hgt hn0)]
    · intro heq hn0
      rw [updateInfo_MinValue]
      have hlt : ¬ valute.Value < cur.MinValue.Value := by
        intro hlt
        cases hv : valute.Value with
        | nan => rw [hv] at heq; exact heq
        | num a =>
          cases hc : cur.MinValue.Value with
          | nan => rw [hv, hc] at heq; exact heq
          | num b =>
            rw [hv, hc] at heq hlt
            have h1 : a = b := heq
            have h2 : a < b := hlt
            exact lt_irrefl _ (h1 ▸ h2)
      rw [if_neg (fun h => h.elim hlt hn0)]

/-- Two days of the sentinel: after 0 then -1 the value -1 is new, so the
stored maximum -1 carries the date of its only observation. -/
theorem fresh_zero_minus_one : FreshAfterZero [Float.ofRat 0, Float.ofRat (-1)] := by
  intro pre post h x hx
  rcases pre with _ | ⟨p, _ | ⟨p2, pre⟩⟩
  · simp only [List.nil_append, List.cons.injEq] at h
    obtain ⟨-, hpost⟩ := h
    rw [← hpost] at hx
    rw [List.mem_singleton.1 hx]
    exact ⟨by simp, by decide⟩
  · simp only [List.cons_append, List.nil_append, List.cons.injEq] at h
    obtain ⟨-, h2, -⟩ := h
    exact absurd h2 (by decide)
  · simp at h

/-- C3 at the two-day scenario, 90 then 95, which gives the maximum 95 dated the
second day and the minimum 90 dated the first day; and at 0 then -1, where the
stored maximum -1 is dated the second day, the day of its only observation. -/
theorem extreme_dates_are_earliest_witness :
    (observedValues twoDays "USD" ≠ [] ∧ Float.nan ∉ observedValues twoDays "USD") ∧
    ((∃ e, (aggregate [] twoDays).get "USD" = some e ∧
      (¬ IsMaximumOf Float.zero (observedValues twoDays "USD") →
        IsMaximumOf e.MaxValue.Value (observedValues twoDays "USD") ∧
        firstDateOf (observations twoDays "USD") e.MaxValue.Value = some e.MaxValue.Date) ∧
      (IsMaximumOf Float.zero (observedValues twoDays "USD") →
        ∃ (pre : List (String × Valute)) (z : String × Valute) (post : List (String × Valute)),
          observations twoDays "USD" = pre ++ z :: post ∧ z.2.Value = Float.zero ∧
          (∀ o ∈ post, o.2.Value ≠ Float.zero) ∧
          ((post = [] ∧ e.MaxValue.Value = Float.zero ∧ e.MaxValue.Date = z.1) ∨
            (post ≠ [] ∧ IsMaximumOf e.MaxValue.Value (post.map fun o => o.2.Value) ∧
              firstDateOf post e.MaxValue.Value = some e.MaxValue.Date))) ∧
      (FreshAfterZero (observedValues twoDays "USD") →
        firstDateOf (observations twoDays "USD") e.MaxValue.Value = some e.MaxValue.Date) ∧
      (¬ IsMinimumOf Float.zero (observedValues twoDays "USD") →
        IsMinimumOf e.MinValue.Value (observedValues twoDays "USD") ∧
        firstDateOf (observations twoDays "USD") e.MinValue.Value = some e.MinValue.Date) ∧
      (IsMinimumOf Float.zero (observedValues twoDays "USD") →
        ∃ (pre : List (String × Valute)) (z : String × Valute) (post : List (String × Valute)),
          observations twoDays "USD" = pre ++ z :: post ∧ z.2.Value = Float.zero ∧
          (∀ o ∈ post, o.2.Value ≠ Float.zero) ∧
          ((post = [] ∧ e.MinValue.Value = Float.zero ∧ e.MinValue.Date = z.1) ∨
            (post ≠ [] ∧ IsMinimumOf e.MinValue.Value (post.map fun o => o.2.Value) ∧
              firstDateOf post e.MinValue.Value = some e.MinValue.Date))) ∧
      (FreshAfterZero (observedValues twoDays "USD") →
        firstDateOf (observations twoDays "USD") e.MinValue.Value = some e.MinValue.Date)) ∧
    (∀ (cur : CurrencyInfo) (valute : Valute) (dateStr : String),
      (Float.eq valute.Value cur.MaxValue.Value → ¬ Float.eq cur.MaxValue.Value Float.zero →
        (updateInfo cur valute dateStr).MaxValue = cur.MaxValue) ∧
      (Float.eq valute.Value cur.MinValue.Value → ¬ Float.eq cur.MinValue.Value Float.zero →
        (updateInfo cur valute dateStr).MinValue = cur.MinValue))) ∧
    (¬ IsMaximumOf Float.zero (observedValues twoDays "USD") ∧
      ¬ IsMinimumOf Float.zero (observedValues twoDays "USD")) ∧
    ((aggregate [] twoDays).get "USD").map (fun e => (e.MaxValue, e.MinValue))
      = some (⟨Float.ofRat 95, "03/11/2026"⟩, ⟨Float.ofRat 90, "04/11/2026"⟩) ∧
    (FreshAfterZero
        (observedValues [("04/11/2026", [usd 0]), ("03/11/2026", [usd (-1)])] "USD") ∧
      ((aggregate [] [("04/11/2026", [usd 0]), ("03/11/2026", [usd (-1)])]).get "USD").map
        (fun e => e.MaxValue) = some ⟨Float.ofRat (-1), "03/11/2026"⟩ ∧
      firstDateOf (observations [("04/11/2026", [usd 0]), ("03/11/2026", [usd (-1)])] "USD")
        (Float.ofRat (-1)) = some "03/11/2026") :=
  ⟨⟨by decide, by decide⟩,
    extreme_dates_are_earliest twoDays "USD" (by decide) (by decide),
    ⟨by decide, by decide⟩, by decide,
    ⟨fresh_zero_minus_one, by decide, by decide⟩⟩

/-! ## Keys of the aggregated store -/

theorem processValute_nodup (cd : Store) (dateStr : String) (valute : Valute)
    (h : (cd.map Prod.fst).Nodup) : ((processValute cd dateStr valute).map Prod.fst).Nodup :=
  Store.nodup_set cd _ _ h

theorem processDay_nodup (valutes : List Valute) (cd : Store) (dateStr : String)
    (h : (cd.map Prod.fst).Nodup) : ((processDay cd dateStr valutes).map Prod.fst).Nodup := by
  induction valutes generalizing cd with
  | nil => exact h
  | cons v rest ih => exact ih _ (processValute_nodup cd dateStr v h)

theorem aggregate_nodup (days : List (String × List Valute)) (cd : Store)
    (h : (cd.map Prod.fst).Nodup) : ((aggregate cd days).map Prod.fst).Nodup := by
  induction days generalizing cd with
  | nil => exact h
  | cons d rest ih =>
    obtain ⟨dateStr, valutes⟩ := d
    exact ih _ (processDay_nodup valutes cd dateStr h)

theorem aggregate_get_of_mem (days : List (String × List Valute))
    (entry : String × CurrencyInfo) (h : entry ∈ aggregate [] days) :
    entryAfter none (observations days entry.1) = some entry.2 := by
  have hget := Store.get_of_mem (aggregate [] days)
    (aggregate_nodup days [] List.nodup_nil) entry h
  rw [aggregate_get] at hget
  exact hget

theorem entry_of_mem (days : List (String × List Valute))
    (entry : String × CurrencyInfo) (h : entry ∈ aggregate [] days) :
    observations days entry.1 ≠ [] ∧
    entry.2.Count = ((observations days entry.1).length : Int) ∧
    entry.2.TotalValue = sum32 (observedValues days entry.1) := by
  have hget := aggregate_get_of_mem days entry h
  have hne : observations days entry.1 ≠ [] := by
    intro h0
    rw [h0] at hget
    exact Option.noConfusion hget
  obtain ⟨e, he, hc, ht⟩ := entry_count_total _ hne
  rw [hget] at he
  cases he
  exact ⟨hne, hc, ht⟩

/-! ## Counter -/

/-- C4: when a code occurs at most once in the records of each day, the `Count`
of its entry after the aggregation is the number of days on which the code
appeared, and the code has no entry exactly when it appeared on no day. -/
theorem count_is_days_appeared (days : List (String × List Valute)) (code : String)
    (honce : ∀ d ∈ days, (d.2.filter fun v => v.CharCode = code).length ≤ 1) :
    (∀ e, (aggregate [] days).get code = some e → e.Count = (daysAppeared days code : Int)) ∧
    ((aggregate [] days).get code = none ↔ daysAppeared days code = 0) := by
  have hlen := observations_length_of_once days code honce
  rw [aggregate_nil_get]
  constructor
  · intro e he
    have hne : observations days code ≠ [] := by
      intro h0
      rw [h0] at he
      exact Option.noConfusion he
    obtain ⟨e', he', hc, -⟩ := entry_count_total _ hne
    rw [he] at he'
    cases he'
    rw [hc, hlen]
  · rw [entryAfter_nil_iff, ← hlen, List.length_eq_zero]

/-- C4 at three days of which the second omits the US dollar: its `Count` is 2,
not 3, and a code that never appears has no entry. -/
theorem count_is_days_appeared_witness :
    (∀ d ∈ threeDays, (d.2.filter fun v => v.CharCode = "USD").length ≤ 1) ∧
    ((∀ e, (aggregate [] threeDays).get "USD" = some e →
        e.Count = (daysAppeared threeDays "USD" : Int)) ∧
      ((aggregate [] threeDays).get "USD" = none ↔ daysAppeared threeDays "USD" = 0)) ∧
    daysAppeared threeDays "USD" = 2 ∧ threeDays.length = 3 ∧
    ((aggregate [] threeDays).get "USD").map (fun e => e.Count) = some 2 ∧
    (aggregate [] threeDays).get "GBP" = none :=
  ⟨by decide, count_is_days_appeared threeDays "USD" (by decide),
    by decide, by decide, by decide, by decide⟩

/-! ## Mean -/

theorem Float.add_ofRat (a b : ℚ) :
    Float.add (Float.ofRat a) (Float.ofRat b) = Float.num (round32 (a + b)) := rfl

theorem Float.add_zero_ofRat (q : ℚ) (h : Exact32 q) :
    Float.add Float.zero (Float.ofRat q) = Float.ofRat q := by
  have : Float.add Float.zero (Float.ofRat q) = Float.num (round32 (0 + q)) := rfl
  rw [this, zero_add, h]
  rfl

theorem Float.ofInt_exact (n : Int) (h : Exact32 (n : ℚ)) : Float.ofInt n = Float.ofRat n := by
  unfold Float.ofInt
  rw [h]
  rfl

theorem Float.div_ofRat (a b : ℚ) (hb : b ≠ 0) :
    Float.div (Float.ofRat a) (Float.ofRat b) = Float.num (round32 (a / b)) := by
  unfold Float.div Float.ofRat
  simp [hb]

theorem Float.ofFloat64_exact (q : ℚ) (h : Exact32 q) :
    Float.ofFloat64 (Float.ofRat q) = Float.ofRat q := by
  have : Float.ofFloat64 (Float.ofRat q) = Float.num (round32 q) := rfl
  rw [this, h]
  rfl

theorem sum32_single (a : Float) : sum32 [a] = Float.add Float.zero a := rfl

theorem sum32_pair (a b : Float) : sum32 [a, b] = Float.add (Float.add Float.zero a) b := rfl

theorem Float.eq_zero_zero : Float.eq Float.zero Float.zero := rfl

theorem sum32_exact (qs : List ℚ) (h : ∀ k, Exact32 ((qs.take k).sum)) :
    sum32 (qs.map Float.ofRat) = Float.ofRat qs.sum := by
  induction qs using List.reverseRecOn with
  | nil => rfl
  | append_singleton qs q ih =>
    have hpre : ∀ k, Exact32 ((qs.take k).sum) := by
      intro k
      have h1 := h (min k qs.length)
      rw [List.take_append_of_le_length (Nat.min_le_right _ _)] at h1
      have h2 : qs.take (min k qs.length) = qs.take k := by simp
      rw [h2] at h1
      exact h1
    have hall := h (qs ++ [q]).length
    rw [List.take_length] at hall
    rw [List.map_append, List.map_cons, List.map_nil, sum32_snoc, ih hpre, Float.add_ofRat]
    rw [List.sum_append, List.sum_singleton] at hall ⊢
    rw [hall]
    rfl

/-- The sum, the counter and the mean of the entry of a code with observations. -/
theorem get_total_average (days : List (String × List Valute)) (code : String)
    (hne : observedValues days code ≠ []) :
    ((aggregate [] days).get code).map (fun e => (e.TotalValue, e.Count, averageValue e)) =
      some (sum32 (observedValues days code), ((observedValues days code).length : Int),
        Float.div (sum32 (observedValues days code))
          (Float.ofInt ((observedValues days code).length : Int))) := by
  obtain ⟨e, he, hc, ht⟩ := entry_count_total _ (observedValues_ne_nil hne)
  rw [aggregate_nil_get, he]
  simp only [Option.map_some', averageValue, hc, ht, observedValues, List.length_map]

/-- C5, as stated, fails: for the US dollar observed at 16777216 and then at 1
the float32 running sum stays 16777216 (the sum 16777217 is not a float32 value)
and the reported mean is 8388608, while the arithmetic mean of the observed
values is 8388608.5. -/
theorem mean_counterexample :
    observedValues roundingDays "USD" = [Float.ofRat 16777216, Float.ofRat 1] ∧
    ((aggregate [] roundingDays).get "USD").map
        (fun e => (e.TotalValue, e.Count, averageValue e))
      = some (Float.ofRat 16777216, 2, Float.ofRat 8388608) ∧
    ((16777216 : ℚ) + 1) / 2 ≠ 8388608 ∧ (16777216 : ℚ) + 1 ≠ 16777216 := by
  have hv : observedValues roundingDays "USD" = [Float.ofRat 16777216, Float.ofRat 1] := by
    decide
  refine ⟨hv, ?_, by norm_num, by norm_num⟩
  rw [get_total_average roundingDays "USD" (by decide), hv]
  have hsum : sum32 [Float.ofRat 16777216, Float.ofRat 1] = Float.ofRat 16777216 := by
    rw [sum32_pair, Float.add_zero_ofRat _ exact32_2pow24, Float.add_ofRat]
    have h2 : (16777216 : ℚ) + 1 = 16777217 := by norm_num
    rw [h2, round32_2pow24_add_1]
    rfl
  have hcount : Float.ofInt (([Float.ofRat 16777216, Float.ofRat 1] : List Float).length : Int)
      = Float.ofRat 2 := by
    have h1 : (([Float.ofRat 16777216, Float.ofRat 1] : List Float).length : Int) = 2 := rfl
    rw [h1, Float.ofInt_exact 2 (by exact_mod_cast exact32_2)]
    norm_num
  rw [hsum, hcount, Float.div_ofRat _ _ (by norm_num)]
  have h3 : (16777216 : ℚ) / 2 = 8388608 := by norm_num
  rw [h3, exact32_2pow23]
  rfl

/-- C5, amended: for every entry of the aggregated store, `TotalValue` is the
float32 running sum of the values observed for its code (each addition rounded
to the nearest float32), `Count` is their number, and the mean that
`analyzeCurrencyData` reports is the float32 quotient of `TotalValue` by
`float32(Count)`.  It is the arithmetic mean of the observed values when these
are finite and every partial sum, the count and the quotient are float32
values. -/
theorem mean_is_float32_quotient (days : List (String × List Valute)) :
    (∀ entry ∈ aggregate [] days,
      entry.2.TotalValue = sum32 (observedValues days entry.1) ∧
      entry.2.Count = ((observedValues days entry.1).length : Int) ∧
      averageValue entry.2 = Float.div entry.2.TotalValue (Float.ofInt entry.2.Count) ∧
      averageValue entry.2 = Float.div (sum32 (observedValues days entry.1))
        (Float.ofInt ((observedValues days entry.1).length : Int)) ∧
      (∀ qs : List ℚ, observedValues days entry.1 = qs.map Float.ofRat →
        (∀ k, Exact32 ((qs.take k).sum)) → Exact32 (qs.length : ℚ) →
        Exact32 (qs.sum / (qs.length : ℚ)) →
        entry.2.TotalValue = Float.ofRat qs.sum ∧
        averageValue entry.2 = Float.ofRat (qs.sum / (qs.length : ℚ)))) ∧
    (analyzeCurrencyData (aggregate [] days)).map (fun line => line.averageValue) =
      (aggregate [] days).map fun entry =>
        Float.div (sum32 (observedValues days entry.1))
          (Float.ofInt ((observedValues days entry.1).length : Int)) := by
  have key : ∀ entry ∈ aggregate [] days,
      observedValues days entry.1 ≠ [] ∧
      entry.2.TotalValue = sum32 (observedValues days entry.1) ∧
      entry.2.Count = ((observedValues days entry.1).length : Int) := by
    intro entry h
    obtain ⟨hne, hc, ht⟩ := entry_of_mem days entry h
    refine ⟨?_, ht, ?_⟩
    · intro h0
      apply hne
      unfold observedValues at h0
      exact List.map_eq_nil_iff.1 h0
    · rw [hc, observedValues_length]
  constructor
  · intro entry h
    obtain ⟨hne, ht, hc⟩ := key entry h
    have havg : averageValue entry.2 = Float.div (sum32 (observedValues days entry.1))
        (Float.ofInt ((observedValues days entry.1).length : Int)) := by
      unfold averageValue
      rw [ht, hc]
    refine ⟨ht, hc, rfl, havg, ?_⟩
    intro qs hqs hsum hlen hquot
    have hlen' : (observedValues days entry.1).length = qs.length := by
      rw [hqs, List.length_map]
    have hqne : (qs.length : ℚ) ≠ 0 := by
      have : qs.length ≠ 0 := by
        rw [← hlen']
        exact fun h0 => hne (List.length_eq_zero.1 h0)
      exact_mod_cast this
    have htot : entry.2.TotalValue = Float.ofRat qs.sum := by
      rw [ht, hqs, sum32_exact qs hsum]
    refine ⟨htot, ?_⟩
    rw [havg, ← ht, htot, hlen', Float.ofInt_exact _ (by exact_mod_cast hlen)]
    have hcast : (((qs.length : ℕ) : ℤ) : ℚ) = (qs.length : ℚ) := by norm_cast
    rw [hcast, Float.div_ofRat _ _ hqne, hquot]
    rfl
  · unfold analyzeCurrencyData
    rw [List.map_map]
    apply List.map_congr_left
    intro entry h
    obtain ⟨-, ht, hc⟩ := key entry h
    simp only [Function.comp, averageValue]
    rw [ht, hc]

theorem unmarshal_sample (s n : String) (q : ℚ)
    (hs : String.mk (Replace s.data ',' '.' 1) = n)
    (hp : sampleParseFloat n = .ok (Float.ofRat q)) (hq : Exact32 q) :
    UnmarshalXML sampleParseFloat s = .ok (Float.ofRat q) := by
  unfold UnmarshalXML
  simp only [hs, hp, Float.ofFloat64_exact q hq]

theorem sampleParseFloat_90 : sampleParseFloat "90.0000" = .ok (Float.ofRat 90) := by
  unfold sampleParseFloat
  rw [if_pos rfl]

theorem sampleParseFloat_95 : sampleParseFloat "95.0000" = .ok (Float.ofRat 95) := by
  unfold sampleParseFloat
  rw [if_neg (by decide), if_pos rfl]

theorem sampleParseFloat_90_5 : sampleParseFloat "90.5000" = .ok (Float.ofRat (181 / 2)) := by
  unfold sampleParseFloat
  rw [if_neg (by decide), if_neg (by decide), if_pos rfl]

theorem sampleParseFloat_65_4321 :
    sampleParseFloat "65.4321" = .ok (Float.num (round32 (654321 / 10000))) := by
  unfold sampleParseFloat
  rw [if_neg (by decide), if_neg (by decide), if_neg (by decide), if_pos rfl]

theorem sampleParseFloat_invalid :
    sampleParseFloat (String.mk (Replace "1,2,3".data ',' '.' 1)) =
      .error ("strconv.ParseFloat: parsing " ++ "1.2,3".quote ++ ": invalid syntax") := by
  have hs : String.mk (Replace "1,2,3".data ',' '.' 1) = "1.2,3" := by decide
  rw [hs]
  unfold sampleParseFloat
  rw [if_neg (by decide), if_neg (by decide), if_neg (by decide), if_neg (by decide)]

theorem unmarshal_90_5000 : UnmarshalXML sampleParseFloat "90,5000" = .ok (Float.ofRat (181 / 2)) :=
  unmarshal_sample "90,5000" "90.5000" (181 / 2) (by decide) sampleParseFloat_90_5 exact32_90_5

theorem decode_rawUsd : decodeValutes sampleWorld [rawUsd] = .ok [usd (181 / 2)] := by
  have h : UnmarshalXML sampleWorld.ParseFloat rawUsd.Value = .ok (Float.ofRat (181 / 2)) :=
    unmarshal_90_5000
  simp only [decodeValutes, decodeValute, h]
  rfl

theorem aggregate_oneDay :
    aggregate [] [("04/11/2026", [usd (181 / 2)])] = [("USD", oneDayEntry)] := by
  simp [aggregate, processDay, processValute, Store.get, Store.set, updateInfo,
    CurrencyInfo.fresh, usd, oneDayEntry, Float.eq_zero_zero,
    Float.add_zero_ofRat _ exact32_90_5]

theorem average_oneDay : averageValue oneDayEntry = Float.ofRat (181 / 2) := by
  have h1 : averageValue oneDayEntry = Float.div (Float.ofRat (181 / 2)) (Float.ofInt 1) := rfl
  rw [h1, Float.ofInt_exact 1 (by exact_mod_cast exact32_1)]
  have h2 : Float.ofRat ((1 : ℤ) : ℚ) = Float.ofRat 1 := by norm_num
  rw [h2, Float.div_ofRat _ _ (by norm_num)]
  have h3 : (181 / 2 : ℚ) / 1 = 181 / 2 := by norm_num
  rw [h3, exact32_90_5]
  rfl

/-- C5 at the scenario of a single day with the one record USD `90,5000`: the
record decodes to 90.5, and the entry has maximum, minimum, sum and mean 90.5
and count 1. -/
theorem mean_is_float32_quotient_witness :
    decodeValutes sampleWorld [rawUsd] = .ok [usd (181 / 2)] ∧
    ("USD", oneDayEntry) ∈ aggregate [] [("04/11/2026", [usd (181 / 2)])] ∧
    (oneDayEntry.TotalValue = sum32 (observedValues [("04/11/2026", [usd (181 / 2)])] "USD") ∧
      oneDayEntry.Count = ((observedValues [("04/11/2026", [usd (181 / 2)])] "USD").length : Int) ∧
      averageValue oneDayEntry =
        Float.div oneDayEntry.TotalValue (Float.ofInt oneDayEntry.Count) ∧
      averageValue oneDayEntry =
        Float.div (sum32 (observedValues [("04/11/2026", [usd (181 / 2)])] "USD"))
          (Float.ofInt
            ((observedValues [("04/11/2026", [usd (181 / 2)])] "USD").length : Int)) ∧
      (∀ qs : List ℚ,
        observedValues [("04/11/2026", [usd (181 / 2)])] "USD" = qs.map Float.ofRat →
        (∀ k, Exact32 ((qs.take k).sum)) → Exact32 (qs.length : ℚ) →
        Exact32 (qs.sum / (qs.length : ℚ)) →
        oneDayEntry.TotalValue = Float.ofRat qs.sum ∧
        averageValue oneDayEntry = Float.ofRat (qs.sum / (qs.length : ℚ)))) ∧
    averageValue oneDayEntry = Float.ofRat (181 / 2) ∧
    oneDayEntry.MaxValue.Value = Float.ofRat (181 / 2) ∧
    oneDayEntry.MinValue.Value = Float.ofRat (181 / 2) ∧
    oneDayEntry.Count = 1 :=
  ⟨decode_rawUsd,
    by rw [aggregate_oneDay]; exact List.mem_singleton.2 rfl,
    (mean_is_float32_quotient [("04/11/2026", [usd (181 / 2)])]).1 ("USD", oneDayEntry)
      (by rw [aggregate_oneDay]; exact List.mem_singleton.2 rfl),
    average_oneDay, rfl, rfl, rfl⟩

/-! ## The fetch loop -/

theorem fetchLoop_eq (w : World) (dates : List Time) (cd : Store) :
    fetchLoop w dates cd = aggregate cd (fetchedDays w dates) := by
  induction dates generalizing cd with
  | nil => rfl
  | cons date rest ih =>
    simp only [fetchLoop, fetchedDays, fetchDay]
    cases h1 : w.NewRequest "GET" (requestURL (w.Format date)) with
    | error err => rfl
    | ok req =>
      dsimp only
      cases h2 : w.Do (req.setHeader "User-Agent" userAgent) with
      | error err => rfl
      | ok resp =>
        dsimp only
        cases h3 : resp.Body with
        | error err => rfl
        | ok body =>
          dsimp only
          cases h4 : Decode w body with
          | error err => rfl
          | ok valCurs =>
            dsimp only
            rw [ih]
            rfl

theorem fetchCurrencyData_eq (w : World) :
    fetchCurrencyData w = aggregate [] (fetchedDays w (previous90Days w.Now)) :=
  fetchLoop_eq w _ []

/-! ## The date window -/

theorem previous90DaysLoop_eq (today : Time) (n i : Nat) (acc : List Time) (h : 90 - i = n) :
    previous90DaysLoop today i acc =
      acc ++ (List.range' i n).map fun (j : Nat) => today.AddDate (-(j : Int)) := by
  induction n generalizing i acc with
  | zero =>
    have hi : ¬ i < 90 := by omega
    rw [previous90DaysLoop]
    simp [hi]
  | succ n ih =>
    have hi : i < 90 := by omega
    rw [previous90DaysLoop]
    simp only [hi, if_true]
    rw [ih (i + 1) _ (by omega), List.range'_succ]
    simp

theorem previous90Days_eq (today : Time) :
    previous90Days today = (List.range 90).map fun (i : Nat) => today.AddDate (-(i : Int)) := by
  unfold previous90Days
  rw [previous90DaysLoop_eq today 90 0 [] rfl, List.range_eq_range']
  simp

/-- C7: for every value of today the date list built by `fetchCurrencyData` is
today minus 0, 1, ..., 89 calendar days in this order: it has 90 elements, its
element `i` is today minus `i` days, it starts at today, the days are strictly
descending and pairwise distinct, and consecutive elements are exactly one day
apart. -/
theorem previous90Days_window (today : Time) :
    previous90Days today = (List.range 90).map (fun (i : Nat) => today.AddDate (-(i : Int))) ∧
    (previous90Days today).length = 90 ∧
    (∀ i : Fin 90, (previous90Days today)[i.val]? =
      some { day := today.day - (i.val : Int), nsec := today.nsec }) ∧
    (previous90Days today).head? = some today ∧
    (previous90Days today).Pairwise (fun a b => b.day < a.day) ∧
    (previous90Days today).Nodup ∧
    ((previous90Days today).map fun t => t.day).Nodup ∧
    (previous90Days today).Chain' (fun a b => b.day = a.day - 1) := by
  have hdesc : (previous90Days today).Pairwise (fun a b => b.day < a.day) := by
    rw [previous90Days_eq, List.pairwise_map]
    refine (List.pairwise_lt_range 90).imp ?_
    intro a b hab
    simp only [Time.AddDate]
    omega
  refine ⟨previous90Days_eq today, ?_, ?_, ?_, hdesc, ?_, ?_, ?_⟩
  · rw [previous90Days_eq]
    simp
  · intro i
    rw [previous90Days_eq, List.getElem?_map, List.getElem?_range i.isLt]
    simp only [Option.map_some', Time.AddDate, Option.some.injEq, Time.mk.injEq, and_true]
    omega
  · rw [previous90Days_eq]
    simp [List.range_succ_eq_map, Time.AddDate]
  · refine hdesc.imp ?_
    intro a b hab heq
    rw [heq] at hab
    exact lt_irrefl _ hab
  · rw [List.Nodup, List.pairwise_map]
    refine hdesc.imp ?_
    intro a b hab heq
    rw [heq] at hab
    exact lt_irrefl _ hab
  · rw [previous90Days_eq, List.chain'_map, List.chain'_range_succ]
    intro m _
    simp only [Time.AddDate]
    push_cast
    omega

/-! ## `Float.UnmarshalXML` -/

theorem Replace_of_not_mem (s : List Char) (old new : Char) (n : Nat) (h : old ∉ s) :
    Replace s old new n = s := by
  induction s with
  | nil => cases n <;> rfl
  | cons c cs ih =>
    cases n with
    | zero => rfl
    | succ n =>
      have hc : ¬ c = old := fun hc => h (hc ▸ List.mem_cons_self _ _)
      have hcs : old ∉ cs := fun hcs => h (List.mem_cons_of_mem _ hcs)
      simp only [Replace, hc, if_false, ih hcs]

theorem Replace_first (pre post : List Char) (old new : Char) (h : old ∉ pre) :
    Replace (pre ++ old :: post) old new 1 = pre ++ new :: post := by
  induction pre with
  | nil => simp [Replace]
  | cons c cs ih =>
    have hc : ¬ c = old := fun hc => h (hc ▸ List.mem_cons_self _ _)
    have hcs : old ∉ cs := fun hcs => h (List.mem_cons_of_mem _ hcs)
    have hstep : Replace (c :: (cs ++ old :: post)) old new 1
        = c :: Replace (cs ++ old :: post) old new 1 := by
      simp only [Replace, hc, if_false]
    rw [List.cons_append, hstep, ih hcs, List.cons_append]

/-- C8: the normalisation in `Float.UnmarshalXML` leaves a text without a comma
unchanged and otherwise turns the first comma, and nothing else, into a
period; `65,4321` becomes `65.4321`, and with a parser that returns the
float32 nearest to 65.4321 for it the value stored is that float32,
2144079/32768; and `UnmarshalXML` returns the error of the number parser when
the normalised text is not a valid number, and the parsed value converted to
float32 otherwise. -/
theorem unmarshal_normalises_first_comma :
    (∀ s : List Char, ',' ∉ s → Replace s ',' '.' 1 = s) ∧
    (∀ pre post : List Char, ',' ∉ pre →
      Replace (pre ++ ',' :: post) ',' '.' 1 = pre ++ '.' :: post) ∧
    (∀ s : List Char, ',' ∈ s → ∃ pre post : List Char,
      s = pre ++ ',' :: post ∧ ',' ∉ pre ∧ Replace s ',' '.' 1 = pre ++ '.' :: post) ∧
    String.mk (Replace "65,4321".data ',' '.' 1) = "65.4321" ∧
    round32 (654321 / 10000) = .fin (2144079 / 32768) ∧
    (∀ ParseFloat : String → Except Error Float,
      ParseFloat "65.4321" = .ok (Float.num (round32 (654321 / 10000))) →
      UnmarshalXML ParseFloat "65,4321" = .ok (Float.ofRat (2144079 / 32768))) ∧
    (∀ (ParseFloat : String → Except Error Float) (v : String) (err : Error),
      ParseFloat (String.mk (Replace v.data ',' '.' 1)) = .error err →
      UnmarshalXML ParseFloat v = .error err) ∧
    (∀ (ParseFloat : String → Except Error Float) (v : String) (fv : Float),
      ParseFloat (String.mk (Replace v.data ',' '.' 1)) = .ok fv →
      UnmarshalXML ParseFloat v = .ok (Float.ofFloat64 fv)) := by
  refine ⟨fun s h => Replace_of_not_mem s _ _ 1 h, fun pre post h => Replace_first pre post _ _ h,
    ?_, by decide, round32_65_4321, ?_, ?_, ?_⟩
  · intro s hs
    induction s with
    | nil => simp at hs
    | cons c cs ih =>
      by_cases hc : c = ','
      · subst hc
        exact ⟨[], cs, rfl, by simp, by simp [Replace]⟩
      · have hcs : ',' ∈ cs := by
          rcases List.mem_cons.1 hs with h | h
          · exact absurd h.symm hc
          · exact h
        obtain ⟨pre, post, heq, hpre, hrep⟩ := ih hcs
        refine ⟨c :: pre, post, by rw [heq]; rfl, ?_, ?_⟩
        · intro hmem
          rcases List.mem_cons.1 hmem with h | h
          · exact hc h.symm
          · exact hpre h
        · have hstep : Replace (c :: cs) ',' '.' 1 = c :: Replace cs ',' '.' 1 := by
            simp only [Replace, hc, if_false]
          rw [hstep, hrep, List.cons_append]
  · intro ParseFloat h
    have hs : String.mk (Replace "65,4321".data ',' '.' 1) = "65.4321" := by decide
    unfold UnmarshalXML
    simp only [hs, h, round32_65_4321]
    exact congrArg Except.ok (Float.ofFloat64_exact _ exact32_65_4321)
  · intro ParseFloat v err h
    simp only [UnmarshalXML, h]
  · intro ParseFloat v fv h
    simp only [UnmarshalXML, h]

/-- C8 at concrete texts with the parser of the sample world: `42` is left
unchanged, in `1,2,3` only the first comma becomes a period, `65,4321` is
stored as the float32 2144079/32768, and `1.2,3` is not a number for the
parser, so `UnmarshalXML` returns an error. -/
theorem unmarshal_normalises_first_comma_witness :
    Replace "42".data ',' '.' 1 = "42".data ∧
    Replace ("1".data ++ ',' :: "2,3".data) ',' '.' 1 = "1".data ++ '.' :: "2,3".data ∧
    UnmarshalXML sampleParseFloat "65,4321" = .ok (Float.ofRat (2144079 / 32768)) ∧
    (∃ err : Error, UnmarshalXML sampleParseFloat "1,2,3" = .error err) :=
  ⟨unmarshal_normalises_first_comma.1 "42".data (by decide),
    unmarshal_normalises_first_comma.2.1 "1".data "2,3".data (by decide),
    unmarshal_normalises_first_comma.2.2.2.2.2.1 sampleParseFloat sampleParseFloat_65_4321,
    ⟨_, unmarshal_normalises_first_comma.2.2.2.2.2.2.1 sampleParseFloat "1,2,3" _
      sampleParseFloat_invalid⟩⟩

/-! ## The sample world -/

theorem unmarshal_90_0000 : UnmarshalXML sampleParseFloat "90,0000" = .ok (Float.ofRat 90) :=
  unmarshal_sample "90,0000" "90.0000" 90 (by decide) sampleParseFloat_90 exact32_90

theorem unmarshal_95_0000 : UnmarshalXML sampleParseFloat "95,0000" = .ok (Float.ofRat 95) :=
  unmarshal_sample "95,0000" "95.0000" 95 (by decide) sampleParseFloat_95 exact32_95

theorem sample_day0 : fetchDay sampleWorld { day := 0, nsec := 0 } = .ok [usd 90] := by
  simp [fetchDay, sampleWorld, sampleFormat, Decode, decodeValutes, decodeValute,
    unmarshal_90_0000, usd, Request.setHeader]

theorem sample_day1 : fetchDay sampleWorld { day := -1, nsec := 0 } = .ok [usd 95] := by
  simp [fetchDay, sampleWorld, sampleFormat, Decode, decodeValutes, decodeValute,
    unmarshal_95_0000, usd, requestURL, Request.setHeader]

theorem sample_day2 : fetchDay sampleWorld { day := -2, nsec := 0 } = .error "timeout" := by
  simp [fetchDay, sampleWorld, sampleFormat, requestURL, Request.setHeader]

theorem sample_dates :
    previous90Days sampleWorld.Now =
      { day := 0, nsec := 0 } :: { day := -1, nsec := 0 } :: { day := -2, nsec := 0 } ::
        (previous90Days sampleWorld.Now).drop 3 := by
  rw [previous90Days_eq]
  decide

theorem sample_fetched : fetchedDays sampleWorld (previous90Days sampleWorld.Now) = twoDays := by
  rw [sample_dates]
  simp only [fetchedDays, sample_day0, sample_day1, sample_day2]
  rfl

theorem aggregate_twoDays : aggregate [] twoDays = [("USD", twoDaysEntry)] := by
  have h1 : Float.add Float.zero (Float.ofRat 90) = Float.ofRat 90 :=
    Float.add_zero_ofRat _ exact32_90
  have h2 : Float.add (Float.ofRat 90) (Float.ofRat 95) = Float.ofRat 185 := by
    have h : (90 : ℚ) + 95 = 185 := by norm_num
    rw [Float.add_ofRat, h, exact32_185]
    rfl
  have c1 : Float.ofRat 90 < Float.ofRat 95 := by decide
  have c2 : ¬ Float.ofRat 95 < Float.ofRat 90 := by decide
  have c3 : ¬ Float.eq (Float.ofRat 90) Float.zero := by decide
  simp [twoDays, aggregate, processDay, processValute, Store.get, Store.set, updateInfo,
    CurrencyInfo.fresh, usd, twoDaysEntry, Float.eq_zero_zero, h1, h2, c1, c2, c3]

theorem sample_store : fetchCurrencyData sampleWorld = [("USD", twoDaysEntry)] := by
  rw [fetchCurrencyData_eq, sample_fetched, aggregate_twoDays]

/-! ## Failure of a date -/

theorem fetchedDays_take (w : World) (dates : List Time) (k : Nat)
    (hok : ∀ date ∈ dates.take k, ∃ valutes, fetchDay w date = .ok valutes)
    (hfail : ∀ date, dates[k]? = some date → ∃ err, fetchDay w date = .error err) :
    fetchedDays w dates = (dates.take k).map fun date => (w.Format date, dayRecords w date) := by
  induction dates generalizing k with
  | nil => simp [fetchedDays]
  | cons date rest ih =>
    cases k with
    | zero =>
      obtain ⟨err, herr⟩ := hfail date (by simp)
      simp [fetchedDays, herr]
    | succ k =>
      obtain ⟨valutes, hv⟩ := hok date (by simp)
      have hrest := ih k
        (fun d hd => hok d (by simp [List.take_succ_cons, hd]))
        (fun d hd => hfail d (by simpa using hd))
      simp only [fetchedDays, hv, List.take_succ_cons, List.map_cons, hrest, dayRecords]

theorem processDay_ne_nil (valutes : List Valute) (cd : Store) (dateStr : String)
    (h : cd ≠ [] ∨ valutes ≠ []) : processDay cd dateStr valutes ≠ [] := by
  induction valutes generalizing cd with
  | nil =>
    rcases h with h | h
    · exact h
    · exact absurd rfl h
  | cons v rest ih =>
    exact ih _ (Or.inl (Store.set_ne_nil _ _ _))

theorem aggregate_ne_nil (days : List (String × List Valute)) (cd : Store)
    (h : cd ≠ [] ∨ ∃ d ∈ days, d.2 ≠ []) : aggregate cd days ≠ [] := by
  induction days generalizing cd with
  | nil =>
    rcases h with h | ⟨d, hd, -⟩
    · exact h
    · simp at hd
  | cons d rest ih =>
    obtain ⟨dateStr, valutes⟩ := d
    simp only [aggregate]
    apply ih
    rcases h with h | ⟨d, hd, hne⟩
    · exact Or.inl (processDay_ne_nil valutes cd dateStr (Or.inl h))
    · rcases List.mem_cons.1 hd with h1 | h1
      · subst h1
        exact Or.inl (processDay_ne_nil valutes cd dateStr (Or.inr hne))
      · exact Or.inr ⟨d, h1, hne⟩

/-- C6: with the fetch-and-decode of a date as the function `fetchDay`, if the
dates before position `k` of the window (counted from 0) all succeed and the
date at position `k`, when there is one, fails, then `fetchCurrencyData`
returns exactly the aggregate of the records of the dates before position `k`,
in order: nothing of the failing date and of the later dates.  With `k = 90`
no date fails and the result is the aggregate of all 90 days.  The result is
not empty as soon as one of the aggregated days has a record. -/
theorem fetch_returns_aggregate_before_failure (w : World) (k : Nat)
    (hok : ∀ date ∈ (previous90Days w.Now).take k, ∃ valutes, fetchDay w date = .ok valutes)
    (hfail : ∀ date, (previous90Days w.Now)[k]? = some date →
      ∃ err, fetchDay w date = .error err) :
    fetchCurrencyData w =
      aggregate [] (((previous90Days w.Now).take k).map fun date =>
        (w.Format date, dayRecords w date)) ∧
    ((∃ date ∈ (previous90Days w.Now).take k, dayRecords w date ≠ []) →
      fetchCurrencyData w ≠ []) := by
  have heq : fetchCurrencyData w =
      aggregate [] (((previous90Days w.Now).take k).map fun date =>
        (w.Format date, dayRecords w date)) := by
    rw [fetchCurrencyData_eq, fetchedDays_take w _ k hok hfail]
  refine ⟨heq, ?_⟩
  rintro ⟨date, hd, hne⟩
  rw [heq]
  apply aggregate_ne_nil
  exact Or.inr ⟨(w.Format date, dayRecords w date), List.mem_map.2 ⟨date, hd, rfl⟩, hne⟩

theorem sample_take2 :
    (previous90Days sampleWorld.Now).take 2 =
      [{ day := 0, nsec := 0 }, { day := -1, nsec := 0 }] := by
  rw [previous90Days_eq]
  decide

theorem sample_third :
    (previous90Days sampleWorld.Now)[2]? = some { day := -2, nsec := 0 } := by
  rw [previous90Days_eq]
  decide

/-- C6 at the sample world, where the third date of the window fails: the
result is the aggregate of the first two days, with the US dollar at maximum
95, minimum 90, sum 185 and count 2, and it is not empty. -/
theorem fetch_returns_aggregate_before_failure_witness :
    (fetchCurrencyData sampleWorld =
      aggregate [] (((previous90Days sampleWorld.Now).take 2).map fun date =>
        (sampleWorld.Format date, dayRecords sampleWorld date)) ∧
    ((∃ date ∈ (previous90Days sampleWorld.Now).take 2, dayRecords sampleWorld date ≠ []) →
      fetchCurrencyData sampleWorld ≠ [])) ∧
    fetchCurrencyData sampleWorld = [("USD", twoDaysEntry)] :=
  ⟨fetch_returns_aggregate_before_failure sampleWorld 2
    (by
      rw [sample_take2]
      intro date hd
      rcases List.mem_cons.1 hd with h | h
      · exact ⟨_, h ▸ sample_day0⟩
      · rw [List.mem_singleton.1 h]
        exact ⟨_, sample_day1⟩)
    (by
      rw [sample_third]
      intro date hd
      rw [← Option.some.inj hd]
      exact ⟨_, sample_day2⟩),
    sample_store⟩

/-! ## The counter is positive -/

/-- C9: every entry of every store that `fetchCurrencyData` returns, the partial
store after a failure included, has `Count ≥ 1`; so the divisor of the mean is
not zero, neither as an integer nor after its conversion to float32. -/
theorem count_is_positive (w : World) (entry : String × CurrencyInfo)
    (h : entry ∈ fetchCurrencyData w) :
    1 ≤ entry.2.Count ∧ (entry.2.Count : ℚ) ≠ 0 ∧
      Float.ofInt entry.2.Count ≠ Float.zero ∧
      averageValue entry.2 = Float.div entry.2.TotalValue (Float.ofInt entry.2.Count) := by
  rw [fetchCurrencyData_eq] at h
  obtain ⟨hne, hc, -⟩ := entry_of_mem _ entry h
  have hpos : 1 ≤ entry.2.Count := by
    rw [hc]
    have := List.length_pos.2 hne
    omega
  have hq : (entry.2.Count : ℚ) ≠ 0 := by
    have : (0 : Int) < entry.2.Count := by omega
    exact_mod_cast ne_of_gt this
  refine ⟨hpos, hq, ?_, rfl⟩
  intro h0
  have h1 : (1 : ℚ) ≤ (entry.2.Count : ℚ) := by exact_mod_cast hpos
  exact round32_ne_zero_of_one_le _ h1 (Float.num_injective h0)

/-- C9 at the sample world, whose store is the partial one after the failure of
the third date. -/
theorem count_is_positive_witness :
    ("USD", twoDaysEntry) ∈ fetchCurrencyData sampleWorld ∧
    (1 ≤ twoDaysEntry.Count ∧ (twoDaysEntry.Count : ℚ) ≠ 0 ∧
      Float.ofInt twoDaysEntry.Count ≠ Float.zero ∧
      averageValue twoDaysEntry =
        Float.div twoDaysEntry.TotalValue (Float.ofInt twoDaysEntry.Count)) :=
  ⟨by rw [sample_store]; exact List.mem_singleton.2 rfl,
    count_is_positive sampleWorld ("USD", twoDaysEntry)
      (by rw [sample_store]; exact List.mem_singleton.2 rfl)⟩

end Currensies
